import Mathlib

/-!
Shallow embedding of the `monnand/rsa` RSASSA-PSS package (files `pss.go`,
`utils.go`).  Byte strings are `List Nat` with every element `< 256`;
`math/big` integers are `Nat` where the source guarantees non-negativity and
`Int` where signed intermediates occur (the CRT combination and unblinding).
`big.Int.Mod` is Euclidean, hence `Int.emod` (`%` in Lean).  A hash instance
is modelled as its finalize function `H : List Nat → List Nat` together with
its output size `hLen`; a random source is a list of the successive values
returned by `rand.Int(random, N)`, exhaustion standing for a read error.
-/

/-- Error values that the package can return: `rsa.ErrVerification`,
`rsa.ErrDecryption`, the two distinct `errors.New` values of
`emsaPSSEncode`, and a failure of the external random source. -/
inductive RsaError where
  | verification
  | decryption
  | encodingHashed
  | encodingSize
  | randFailure
  deriving DecidableEq, Repr

/-- Big-endian value of a byte string, as in `big.Int.SetBytes`. -/
def fromBytes (l : List Nat) : Nat :=
  l.foldl (fun acc b => acc * 256 + b) 0

/-- Big-endian encoding of `x` into exactly `n` bytes (assuming `x < 256^n`). -/
def octets : Nat → Nat → List Nat
  | 0, _ => []
  | n + 1, x => octets n (x / 256) ++ [x % 256]

/-- Fuel-driven byte length; `byteLenF f x` is the number of base-256 digits
of `x` whenever `x ≤ f`. -/
def byteLenF : Nat → Nat → Nat
  | 0, _ => 0
  | f + 1, x => if x = 0 then 0 else byteLenF f (x / 256) + 1

/-- Number of bytes of the minimal big-endian encoding, as in `big.Int.Bytes`. -/
def byteLen (x : Nat) : Nat := byteLenF x x

/-- Minimal big-endian encoding of a non-negative integer, as in
`big.Int.Bytes` (the empty string for `0`). -/
def natBytes (x : Nat) : List Nat := octets (byteLen x) x

/-- Fuel-driven bit length; `bitLenF f x` is the number of binary digits of
`x` whenever `x ≤ f`. -/
def bitLenF : Nat → Nat → Nat
  | 0, _ => 0
  | f + 1, x => if x = 0 then 0 else bitLenF f (x / 2) + 1

/-- Number of bits, as in `big.Int.BitLen` (`0` for `0`). -/
def bitLen (x : Nat) : Nat := bitLenF x x

/-- `copyWithLeftPad dest src` copies `src` to the end of a `n`-byte
destination, padding with zero bytes on the left (`utils.go`). -/
def copyWithLeftPad (n : Nat) (src : List Nat) : List Nat :=
  List.replicate (n - src.length) 0 ++ src

/-- `incCounter` increments a four byte, big-endian counter (`utils.go`). -/
def incCounter : List Nat → List Nat
  | [a, b, c, d] =>
    if d + 1 < 256 then [a, b, c, d + 1]
    else if c + 1 < 256 then [a, b, c + 1, 0]
    else if b + 1 < 256 then [a, b + 1, 0, 0]
    else [(a + 1) % 256, 0, 0, 0]
  | l => l

/-- The mask bytes produced by the loop of `mgf1XOR` (`utils.go`): blocks
`H (seed ++ counter)` concatenated, truncated to `n` bytes.  The fuel is an
upper bound on `n`; a hash with empty output would make the source loop spin
forever, which the model renders as an empty mask. -/
def mgf1MaskF (H : List Nat → List Nat) (seed : List Nat) :
    Nat → List Nat → Nat → List Nat
  | 0, _, _ => []
  | _ + 1, _, 0 => []
  | f + 1, counter, n + 1 =>
    if (H (seed ++ counter)).length = 0 then []
    else (H (seed ++ counter)).take (n + 1) ++
      mgf1MaskF H seed f (incCounter counter) (n + 1 - (H (seed ++ counter)).length)

/-- Mask of length `n` generated by MGF1 from `seed`, counter starting at 0. -/
def mgf1Mask (H : List Nat → List Nat) (seed : List Nat) (n : Nat) : List Nat :=
  mgf1MaskF H seed n [0, 0, 0, 0] n

/-- `mgf1XOR out hash seed` XORs the MGF1 mask into `out` (`utils.go`). -/
def mgf1XOR (out : List Nat) (H : List Nat → List Nat) (seed : List Nat) : List Nat :=
  List.zipWith (fun a b => a ^^^ b) out (mgf1Mask H seed out.length)

/-- Fuel-driven extended Euclid returning `(g, x, y)` with
`a * x + b * y = g = gcd a b`; correct whenever `a ≤ fuel`.  This models the
Bézout contract of `big.Int.GCD`, the external arbitrary-precision library. -/
def egcdF : Nat → Nat → Nat → Nat × Int × Int
  | _, 0, b => (b, 0, 1)
  | 0, _, _ => (0, 0, 0)
  | f + 1, a, b =>
    let r := egcdF f (b % a) a
    (r.1, r.2.2 - (b / a : Nat) * r.2.1, r.2.1)

/-- Extended gcd: `egcd a b = (gcd a b, x, y)` with `a * x + b * y = gcd a b`. -/
def egcd (a b : Nat) : Nat × Int × Int := egcdF a a b

/-- `modInverse a n` returns the inverse of `a` modulo `n` when
`gcd a n = 1`, mirroring `utils.go`: take the Bézout coefficient `x` of `a`
and add `n` once when `x < 1`. -/
def modInverse (a n : Nat) : Option Int :=
  if (egcd a n).1 ≠ 1 then none
  else some (if (egcd a n).2.1 < 1 then (egcd a n).2.1 + n else (egcd a n).2.1)

/-- `rsa.PublicKey`. -/
structure PublicKey where
  N : Nat
  E : Nat
  deriving Repr

/-- One element of `rsa.PrecomputedValues.CRTValues`. -/
structure CRTValue where
  Exp : Nat
  Coeff : Nat
  R : Nat
  deriving Repr

/-- `rsa.PrecomputedValues`; the whole record is optional, mirroring the
`Dp == nil` test of `decrypt`. -/
structure PrecomputedCRT where
  Dp : Nat
  Dq : Nat
  Qinv : Nat
  CRTValues : List CRTValue
  deriving Repr

/-- `rsa.PrivateKey` (the public part inlined). -/
structure PrivateKey where
  N : Nat
  E : Nat
  D : Nat
  Primes : List Nat
  Precomputed : Option PrecomputedCRT
  deriving Repr

/-- `encrypt` (`utils.go`): `c = m^E mod N`. -/
def encrypt (pub : PublicKey) (m : Nat) : Nat :=
  m ^ pub.E % pub.N

/-- One iteration of the multi-prime loop of `decrypt` (`utils.go`):
`m2 = c^Exp mod prime; m2 -= m; m2 *= Coeff; m2 mod= prime;`
(`if m2 < 0 { m2 += prime }` — dead under Euclidean `Mod`); `m2 *= R; m += m2`. -/
def crtStep (c : Nat) (m : Int) (pv : Nat × CRTValue) : Int :=
  let x : Nat := c ^ pv.2.Exp % pv.1
  let t : Int := ((x : Int) - m) * pv.2.Coeff % (pv.1 : Int)
  let t : Int := if t < 0 then t + pv.1 else t
  m + t * pv.2.R

/-- The exponentiation part of `decrypt` (`utils.go`, lines 121–148): a
single full-modulus exponentiation when no CRT data is precomputed,
otherwise Garner's combination over the prime factors.  A key whose CRT data
is present but whose `Primes` has fewer than two entries would make the
source panic; the model returns `0` there. -/
def decryptCore (priv : PrivateKey) (c : Nat) : Int :=
  match priv.Precomputed with
  | none => ((c ^ priv.D % priv.N : Nat) : Int)
  | some pc =>
    match priv.Primes with
    | p :: q :: rest =>
      let m1 : Nat := c ^ pc.Dp % p
      let m2 : Nat := c ^ pc.Dq % q
      let t : Int := (m1 : Int) - (m2 : Int)
      let t : Int := if t < 0 then t + p else t
      let t : Int := t * pc.Qinv % (p : Int)
      let m : Int := t * q + m2
      (List.zip rest pc.CRTValues).foldl (crtStep c) m
    | _ => 0

/-- The blinding-factor search of `decrypt`: draw `r`, replace a zero draw by
`1`, retry while `r` has no inverse modulo `N`.  An exhausted draw list
models a failing random source, whose error propagates out. -/
def blindLoop (N : Nat) : List Nat → Except RsaError (Nat × Int)
  | [] => .error .randFailure
  | r :: rest =>
    let r := if r = 0 then 1 else r
    match modInverse r N with
    | none => blindLoop N rest
    | some ir => .ok (r, ir)

/-- `decrypt` (`utils.go`): range guard `c > N`, optional blinding,
exponentiation, optional unblinding. -/
def decrypt (random : Option (List Nat)) (priv : PrivateKey) (c : Nat) :
    Except RsaError Int :=
  if priv.N < c then .error .decryption
  else
    match random with
    | none => .ok (decryptCore priv c)
    | some draws =>
      match blindLoop priv.N draws with
      | .error e => .error e
      | .ok (r, ir) =>
        let rpowe := r ^ priv.E % priv.N
        let cBlind := c * rpowe % priv.N
        .ok (decryptCore priv cBlind * ir % (priv.N : Int))

/-- The octet string `H = Hash(M')` with `M' = 8 zero bytes || mHash || salt`
computed by both `emsaPSSEncode` and `emsaPSSVerify` (`pss.go`). -/
def pssH (H : List Nat → List Nat) (mHash salt : List Nat) : List Nat :=
  H (List.replicate 8 0 ++ mHash ++ salt)

/-- The buffer `DB = PS || 0x01 || salt` built by `emsaPSSEncode`. -/
def pssDB (hLen : Nat) (emBits : Nat) (salt : List Nat) : List Nat :=
  List.replicate ((emBits + 7) / 8 - salt.length - hLen - 2) 0 ++ [1] ++ salt

/-- `maskedDB` as produced by `emsaPSSEncode`: `DB` XORed with the MGF1 mask
seeded by `H`, the forbidden top bits of the leading octet cleared. -/
def pssMaskedDB (hLen : Nat) (H : List Nat → List Nat)
    (mHash : List Nat) (emBits : Nat) (salt : List Nat) : List Nat :=
  match List.zipWith (fun a b => a ^^^ b) (pssDB hLen emBits salt)
      (mgf1Mask H (pssH H mHash salt) (pssDB hLen emBits salt).length) with
  | [] => []
  | b :: bs => (b &&& (0xFF >>> (8 * ((emBits + 7) / 8) - emBits))) :: bs

/-- `emsaPSSEncode` (`pss.go`): EMSA-PSS encoding of a digest with a given
salt into `emLen = ceil(emBits/8)` bytes. -/
def emsaPSSEncode (hLen : Nat) (H : List Nat → List Nat)
    (mHash : List Nat) (emBits : Nat) (salt : List Nat) :
    Except RsaError (List Nat) :=
  if mHash.length ≠ hLen then .error .encodingHashed
  else if (emBits + 7) / 8 < hLen + salt.length + 2 then .error .encodingSize
  else .ok (pssMaskedDB hLen H mHash emBits salt ++ pssH H mHash salt ++ [0xBC])

/-- The slice `h := em[emLen-hLen-1 : len(em)-1]` taken by `emsaPSSVerify`. -/
def pssExtractedH (hLen : Nat) (em : List Nat) (emBits : Nat) : List Nat :=
  (em.drop ((emBits + 7) / 8 - hLen - 1)).take
    (em.length - 1 - ((emBits + 7) / 8 - hLen - 1))

/-- The buffer `DB` recomputed by `emsaPSSVerify`: the leading
`emLen - hLen - 1` octets of `em`, unmasked by `mgf1XOR` with seed `h`, the
forbidden top bits of the leading octet cleared. -/
def pssUnmaskedDB (hLen : Nat) (H : List Nat → List Nat)
    (em : List Nat) (emBits : Nat) : List Nat :=
  match List.zipWith (fun a b => a ^^^ b) (em.take ((emBits + 7) / 8 - hLen - 1))
      (mgf1Mask H (pssExtractedH hLen em emBits)
        (em.take ((emBits + 7) / 8 - hLen - 1)).length) with
  | [] => []
  | b :: bs => (b &&& (0xFF >>> (8 * ((emBits + 7) / 8) - emBits))) :: bs

/-- The salt recovered by `emsaPSSVerify`: the last `sLen` octets of `DB`. -/
def pssRecoveredSalt (hLen : Nat) (H : List Nat → List Nat)
    (em : List Nat) (emBits sLen : Nat) : List Nat :=
  (pssUnmaskedDB hLen H em emBits).drop ((pssUnmaskedDB hLen H em emBits).length - sLen)

/-- `emsaPSSVerify` (`pss.go`): the checks, in source order, each failure
returning `rsa.ErrVerification`. -/
def emsaPSSVerify (hLen : Nat) (H : List Nat → List Nat)
    (mHash em : List Nat) (emBits sLen : Nat) :
    Except RsaError Unit :=
  if hLen ≠ mHash.length then .error .verification
  else if (emBits + 7) / 8 < hLen + sLen + 2 then .error .verification
  else if em.getD (em.length - 1) 0 ≠ 0xBC then .error .verification
  else if em.getD 0 0 &&& (0xFF <<< (8 - (8 * ((emBits + 7) / 8) - emBits))) ≠ 0 then
    .error .verification
  else if ((pssUnmaskedDB hLen H em emBits).take
      ((emBits + 7) / 8 - hLen - sLen - 2)).any (fun e => e ≠ 0) then
    .error .verification
  else if (pssUnmaskedDB hLen H em emBits).getD ((emBits + 7) / 8 - hLen - sLen - 2) 0 ≠ 1 then
    .error .verification
  else if H (List.replicate 8 0 ++ mHash ++ pssRecoveredSalt hLen H em emBits sLen) ≠
      pssExtractedH hLen em emBits then
    .error .verification
  else .ok ()

/-- `SignPSS` (`pss.go`): encode with `emBits = BitLen(N) - 1`, run the
private RSA operation, left-pad to `ceil(BitLen(N)/8)` bytes. -/
def SignPSS (random : Option (List Nat)) (priv : PrivateKey)
    (hLen : Nat) (H : List Nat → List Nat) (hashed salt : List Nat) :
    Except RsaError (List Nat) :=
  match emsaPSSEncode hLen H hashed (bitLen priv.N - 1) salt with
  | .error e => .error e
  | .ok em =>
    match decrypt random priv (fromBytes em) with
    | .error e => .error e
    | .ok c => .ok (copyWithLeftPad ((bitLen priv.N + 7) / 8) (natBytes c.natAbs))

/-- `VerifyPSS` (`pss.go`): run the public RSA operation on the signature
value, reject when the result needs more than `emLen` bytes, left-pad and
run `emsaPSSVerify`. -/
def VerifyPSS (pub : PublicKey) (hLen : Nat) (H : List Nat → List Nat)
    (hashed sig : List Nat) (sLen : Nat) :
    Except RsaError Unit :=
  if (bitLen pub.N - 1 + 7) / 8 < byteLen (encrypt pub (fromBytes sig)) then
    .error .verification
  else
    emsaPSSVerify hLen H hashed
      (copyWithLeftPad ((bitLen pub.N - 1 + 7) / 8)
        (natBytes (encrypt pub (fromBytes sig))))
      (bitLen pub.N - 1) sLen

/-! ### Generic byte-string and bitwise lemmas -/

theorem zipWith_xor_zipWith_xor (a b : List Nat) :
    List.zipWith (fun x y => x ^^^ y) a (List.zipWith (fun x y => x ^^^ y) a b) =
      b.take a.length := by
  induction a generalizing b with
  | nil => simp
  | cons x xs ih =>
    cases b with
    | nil => simp
    | cons y ys =>
      simp only [List.zipWith, List.take, List.length_cons, ih]
      rw [← Nat.xor_assoc, Nat.xor_self, Nat.zero_xor]

theorem zipWith_xor_cancel (a b : List Nat) (h : b.length = a.length) :
    List.zipWith (fun x y => x ^^^ y) (List.zipWith (fun x y => x ^^^ y) a b) b = a := by
  induction a generalizing b with
  | nil => cases b <;> simp_all
  | cons x xs ih =>
    cases b with
    | nil => simp_all
    | cons y ys =>
      simp only [List.zipWith]
      rw [Nat.xor_assoc, Nat.xor_self, Nat.xor_zero]
      simp only [List.length_cons, Nat.succ.injEq] at h
      rw [ih ys h]

theorem shiftRight_255 (k : Nat) (hk : k ≤ 8) : 255 >>> k = 2 ^ (8 - k) - 1 := by
  interval_cases k <;> rfl

theorem and_low_and_high (x y t : Nat) :
    (x &&& (2 ^ t - 1)) &&& (y <<< t) = 0 := by
  apply Nat.eq_of_testBit_eq
  intro i
  simp only [Nat.testBit_and, Nat.testBit_shiftLeft, Nat.testBit_two_pow_sub_one,
    Nat.zero_testBit]
  by_cases h : i < t
  · simp [h, Nat.not_le.mpr h]
  · simp [h]

theorem unmask_low (x y t : Nat) :
    (((x ^^^ y) &&& (2 ^ t - 1)) ^^^ y) &&& (2 ^ t - 1) = x &&& (2 ^ t - 1) := by
  apply Nat.eq_of_testBit_eq
  intro i
  simp only [Nat.testBit_and, Nat.testBit_xor, Nat.testBit_two_pow_sub_one]
  by_cases h : i < t
  · cases hx : x.testBit i <;> cases hy : y.testBit i <;> simp [h, hx, hy]
  · simp [h]

/-! ### Claim theorems: MGF1 determinism, encoder error cases, verifier opacity -/

/-- Claim C9: `mgf1XOR` is deterministic — over two equal-length starting
buffers with the same seed and hash, the mask XORed into the buffer is the
same, being a function of the seed, the buffer length and the hash alone. -/
theorem mgf1XOR_mask_deterministic (H : List Nat → List Nat) (seed out1 out2 : List Nat)
    (hlen : out1.length = out2.length) :
    List.zipWith (fun x y => x ^^^ y) out1 (mgf1XOR out1 H seed) =
      List.zipWith (fun x y => x ^^^ y) out2 (mgf1XOR out2 H seed) := by
  unfold mgf1XOR
  rw [zipWith_xor_zipWith_xor, zipWith_xor_zipWith_xor, hlen]

/-- Witness for C9 at a concrete hash, seed and pair of buffers. -/
theorem mgf1XOR_mask_deterministic_witness :
    List.zipWith (fun x y => x ^^^ y) [1, 2]
        (mgf1XOR [1, 2] (fun s => [s.foldl (fun a b => a + b) 0 % 256]) [5]) =
      List.zipWith (fun x y => x ^^^ y) [3, 4]
        (mgf1XOR [3, 4] (fun s => [s.foldl (fun a b => a + b) 0 % 256]) [5]) :=
  mgf1XOR_mask_deterministic (fun s => [s.foldl (fun a b => a + b) 0 % 256]) [5]
    [1, 2] [3, 4] (by decide)

/-- Claim C7: `emsaPSSEncode` fails with one of its two encoding errors
exactly when the digest length differs from `hLen` or
`emLen < hLen + sLen + 2`; otherwise it succeeds. -/
theorem emsaPSSEncode_error_iff (hLen : Nat) (H : List Nat → List Nat)
    (mHash : List Nat) (emBits : Nat) (salt : List Nat) :
    (∃ e, emsaPSSEncode hLen H mHash emBits salt = .error e ∧
        (e = RsaError.encodingHashed ∨ e = RsaError.encodingSize)) ↔
      (mHash.length ≠ hLen ∨ (emBits + 7) / 8 < hLen + salt.length + 2) := by
  unfold emsaPSSEncode
  by_cases h1 : mHash.length ≠ hLen
  · simp [h1]
  · by_cases h2 : (emBits + 7) / 8 < hLen + salt.length + 2
    · simp [h1, h2]
    · simp [h1, h2]

/-- Claim C6: every outcome of `emsaPSSVerify` is either acceptance or the
single opaque `rsa.ErrVerification` value — no failure path returns a
distinguishable error. -/
theorem emsaPSSVerify_error_opaque (hLen : Nat) (H : List Nat → List Nat)
    (mHash em : List Nat) (emBits sLen : Nat) :
    emsaPSSVerify hLen H mHash em emBits sLen = .ok () ∨
      emsaPSSVerify hLen H mHash em emBits sLen = .error RsaError.verification := by
  unfold emsaPSSVerify
  split_ifs <;> simp

/-! ### Byte-length and encoding lemmas -/

theorem byteLenF_eq (f : Nat) : ∀ g x, x ≤ f → x ≤ g → byteLenF f x = byteLenF g x := by
  induction f with
  | zero =>
    intro g x hf _
    interval_cases x
    cases g <;> simp [byteLenF]
  | succ f ih =>
    intro g x hf hg
    cases g with
    | zero =>
      interval_cases x
      simp [byteLenF]
    | succ g =>
      simp only [byteLenF]
      by_cases h0 : x = 0
      · simp [h0]
      · simp only [h0, if_false]
        have hx : 0 < x := Nat.pos_of_ne_zero h0
        have : x / 256 < x := Nat.div_lt_self hx (by omega)
        rw [ih g (x / 256) (by omega) (by omega)]

theorem byteLen_succ (x : Nat) (h : x ≠ 0) : byteLen x = byteLen (x / 256) + 1 := by
  have hx : 0 < x := Nat.pos_of_ne_zero h
  have hlt : x / 256 < x := Nat.div_lt_self hx (by omega)
  unfold byteLen
  cases x with
  | zero => omega
  | succ y =>
    simp only [byteLenF, h, Nat.succ_ne_zero, if_false]
    rw [byteLenF_eq y ((y + 1) / 256) ((y + 1) / 256) (by omega) (by omega)]

theorem lt_pow_byteLen (x : Nat) : x < 256 ^ byteLen x := by
  induction x using Nat.strong_induction_on with
  | _ x ih =>
    by_cases h0 : x = 0
    · simp [h0, byteLen, byteLenF]
    · rw [byteLen_succ x h0, pow_succ]
      have hlt : x / 256 < x := Nat.div_lt_self (Nat.pos_of_ne_zero h0) (by omega)
      have := ih (x / 256) hlt
      have : x / 256 + 1 ≤ 256 ^ byteLen (x / 256) := this
      calc x < 256 * (x / 256) + 256 := by
              have := Nat.mod_lt x (show 0 < 256 by omega)
              have := Nat.div_add_mod x 256
              omega
        _ = 256 * (x / 256 + 1) := by ring
        _ ≤ 256 * 256 ^ byteLen (x / 256) := by
              exact Nat.mul_le_mul_left 256 this
        _ = 256 ^ byteLen (x / 256) * 256 := by ring

theorem byteLen_le (x n : Nat) (h : x < 256 ^ n) : byteLen x ≤ n := by
  induction x using Nat.strong_induction_on generalizing n with
  | _ x ih =>
    by_cases h0 : x = 0
    · simp [h0, byteLen, byteLenF]
    · rw [byteLen_succ x h0]
      have hn : n ≠ 0 := by
        rintro rfl
        simp at h
        omega
      obtain ⟨m, rfl⟩ : ∃ m, n = m + 1 := ⟨n - 1, by omega⟩
      have hlt : x / 256 < x := Nat.div_lt_self (Nat.pos_of_ne_zero h0) (by omega)
      have hdiv : x / 256 < 256 ^ m := by
        rw [Nat.div_lt_iff_lt_mul (by omega : 0 < 256)]
        calc x < 256 ^ (m + 1) := h
          _ = 256 ^ m * 256 := by ring
      have := ih (x / 256) hlt m hdiv
      omega

theorem octets_length (n x : Nat) : (octets n x).length = n := by
  induction n generalizing x with
  | zero => simp [octets]
  | succ n ih => simp [octets, ih]

theorem octets_mem_lt (n x : Nat) : ∀ b ∈ octets n x, b < 256 := by
  induction n generalizing x with
  | zero => simp [octets]
  | succ n ih =>
    intro b hb
    simp only [octets, List.mem_append, List.mem_singleton] at hb
    rcases hb with hb | hb
    · exact ih (x / 256) b hb
    · subst hb
      exact Nat.mod_lt x (by omega)

theorem fromBytes_foldl (acc : Nat) (l : List Nat) :
    List.foldl (fun a b => a * 256 + b) acc l = acc * 256 ^ l.length + fromBytes l := by
  induction l generalizing acc with
  | nil => simp [fromBytes]
  | cons x xs ih =>
    show List.foldl (fun a b => a * 256 + b) (acc * 256 + x) xs = _
    rw [ih]
    have hx : fromBytes (x :: xs) = x * 256 ^ xs.length + fromBytes xs := by
      show List.foldl (fun a b => a * 256 + b) (0 * 256 + x) xs = _
      rw [ih]
      ring_nf
    rw [hx]
    simp only [List.length_cons, pow_succ]
    ring

theorem fromBytes_append (a b : List Nat) :
    fromBytes (a ++ b) = fromBytes a * 256 ^ b.length + fromBytes b := by
  unfold fromBytes
  rw [List.foldl_append]
  exact fromBytes_foldl _ b

theorem fromBytes_singleton (y : Nat) : fromBytes [y] = y := by
  simp [fromBytes]

theorem fromBytes_lt (l : List Nat) (h : ∀ b ∈ l, b < 256) :
    fromBytes l < 256 ^ l.length := by
  induction l using List.reverseRecOn with
  | nil => simp [fromBytes]
  | append_singleton a y ih =>
    have hy : y < 256 := h y (by simp)
    have ha : fromBytes a < 256 ^ a.length := ih (fun b hb => h b (by simp [hb]))
    have hlen : (a ++ [y]).length = a.length + 1 := by simp
    rw [hlen, fromBytes_append, fromBytes_singleton, List.length_singleton, pow_one,
      pow_succ]
    have h1 : 1 ≤ 256 ^ a.length := Nat.one_le_pow _ _ (by omega)
    have h2 : fromBytes a * 256 ≤ (256 ^ a.length - 1) * 256 :=
      Nat.mul_le_mul_right 256 (by omega)
    omega

theorem fromBytes_octets (n x : Nat) (h : x < 256 ^ n) :
    fromBytes (octets n x) = x := by
  induction n generalizing x with
  | zero =>
    simp [octets, fromBytes]
    omega
  | succ n ih =>
    simp only [octets]
    rw [fromBytes_append]
    have hdiv : x / 256 < 256 ^ n := by
      rw [Nat.div_lt_iff_lt_mul (by omega : 0 < 256)]
      calc x < 256 ^ (n + 1) := h
        _ = 256 ^ n * 256 := by ring
    rw [ih (x / 256) hdiv]
    show x / 256 * 256 ^ (1 : Nat) + fromBytes [x % 256] = x
    have : fromBytes [x % 256] = x % 256 := by simp [fromBytes, List.foldl]
    rw [this, pow_one]
    omega

theorem octets_fromBytes (l : List Nat) (h : ∀ b ∈ l, b < 256) :
    octets l.length (fromBytes l) = l := by
  induction l using List.reverseRecOn with
  | nil => simp [octets, fromBytes]
  | append_singleton a y ih =>
    rw [fromBytes_append]
    simp only [List.length_append, List.length_singleton, octets]
    have hy : y < 256 := h y (by simp)
    have hfy : fromBytes [y] = y := by simp [fromBytes, List.foldl]
    rw [hfy]
    have hdiv : (fromBytes a * 256 ^ (1 : Nat) + y) / 256 = fromBytes a := by
      rw [pow_one]
      omega
    have hmod : (fromBytes a * 256 ^ (1 : Nat) + y) % 256 = y := by
      rw [pow_one]
      omega
    rw [hdiv, hmod, ih (fun b hb => h b (by simp [hb]))]

theorem octets_succ_of_lt (n x : Nat) (h : x < 256 ^ n) :
    octets (n + 1) x = 0 :: octets n x := by
  induction n generalizing x with
  | zero =>
    simp only [octets]
    have : x = 0 := by simpa using h
    simp [this]
  | succ n ih =>
    show octets (n + 1) (x / 256) ++ [x % 256] = 0 :: (octets n (x / 256) ++ [x % 256])
    have hdiv : x / 256 < 256 ^ n := by
      rw [Nat.div_lt_iff_lt_mul (by omega : 0 < 256)]
      calc x < 256 ^ (n + 1) := h
        _ = 256 ^ n * 256 := by ring
    rw [ih (x / 256) hdiv]
    rfl

theorem octets_eq_replicate_append (m n x : Nat) (h : x < 256 ^ m) (hmn : m ≤ n) :
    octets n x = List.replicate (n - m) 0 ++ octets m x := by
  obtain ⟨k, rfl⟩ : ∃ k, n = m + k := ⟨n - m, by omega⟩
  induction k with
  | zero => simp
  | succ k ih =>
    have hk : x < 256 ^ (m + k) :=
      lt_of_lt_of_le h (Nat.pow_le_pow_right (by omega) (by omega))
    rw [show m + (k + 1) = (m + k) + 1 by ring, octets_succ_of_lt (m + k) x hk,
      ih (by omega)]
    simp only [show m + k + 1 - m = k + 1 by omega, show m + k - m = k by omega,
      List.replicate_succ, List.cons_append]

theorem copyWithLeftPad_natBytes (n x : Nat) (h : x < 256 ^ n) :
    copyWithLeftPad n (natBytes x) = octets n x := by
  unfold copyWithLeftPad natBytes
  have hlb : byteLen x ≤ n := byteLen_le x n h
  rw [octets_length]
  exact (octets_eq_replicate_append (byteLen x) n x (lt_pow_byteLen x) hlb).symm

theorem fromBytes_natBytes (x : Nat) : fromBytes (natBytes x) = x :=
  fromBytes_octets (byteLen x) x (lt_pow_byteLen x)

theorem fromBytes_copyWithLeftPad (n : Nat) (l : List Nat) :
    fromBytes (copyWithLeftPad n l) = fromBytes l := by
  unfold copyWithLeftPad
  rw [fromBytes_append]
  have : fromBytes (List.replicate (n - l.length) 0) = 0 := by
    induction (n - l.length) with
    | zero => simp [fromBytes]
    | succ k ih =>
      rw [List.replicate_succ']
      show fromBytes (List.replicate k 0 ++ [0]) = 0
      rw [fromBytes_append, ih]
      simp [fromBytes, List.foldl]
  rw [this]
  omega

/-! ### Bit-length lemmas -/

theorem bitLenF_eq (f : Nat) : ∀ g x, x ≤ f → x ≤ g → bitLenF f x = bitLenF g x := by
  induction f with
  | zero =>
    intro g x hf _
    interval_cases x
    cases g <;> simp [bitLenF]
  | succ f ih =>
    intro g x hf hg
    cases g with
    | zero =>
      interval_cases x
      simp [bitLenF]
    | succ g =>
      simp only [bitLenF]
      by_cases h0 : x = 0
      · simp [h0]
      · simp only [h0, if_false]
        have hx : 0 < x := Nat.pos_of_ne_zero h0
        have : x / 2 < x := Nat.div_lt_self hx (by omega)
        rw [ih g (x / 2) (by omega) (by omega)]

theorem bitLen_succ (x : Nat) (h : x ≠ 0) : bitLen x = bitLen (x / 2) + 1 := by
  have hx : 0 < x := Nat.pos_of_ne_zero h
  have hlt : x / 2 < x := Nat.div_lt_self hx (by omega)
  unfold bitLen
  cases x with
  | zero => omega
  | succ y =>
    simp only [bitLenF, h, Nat.succ_ne_zero, if_false]
    rw [bitLenF_eq y ((y + 1) / 2) ((y + 1) / 2) (by omega) (by omega)]

theorem bitLen_pos (x : Nat) (h : 1 ≤ x) : 1 ≤ bitLen x := by
  rw [bitLen_succ x (by omega)]
  omega

theorem lt_two_pow_bitLen (x : Nat) : x < 2 ^ bitLen x := by
  induction x using Nat.strong_induction_on with
  | _ x ih =>
    by_cases h0 : x = 0
    · simp [h0, bitLen, bitLenF]
    · rw [bitLen_succ x h0, pow_succ]
      have hlt : x / 2 < x := Nat.div_lt_self (Nat.pos_of_ne_zero h0) (by omega)
      have := ih (x / 2) hlt
      omega

theorem two_pow_bitLen_le (x : Nat) (h : 1 ≤ x) : 2 ^ (bitLen x - 1) ≤ x := by
  induction x using Nat.strong_induction_on with
  | _ x ih =>
    by_cases h1 : x = 1
    · simp [h1, bitLen, bitLenF]
    · have h2 : 2 ≤ x := by omega
      rw [bitLen_succ x (by omega)]
      have hd : 1 ≤ x / 2 := by omega
      have hlt : x / 2 < x := Nat.div_lt_self (by omega) (by omega)
      have := ih (x / 2) hlt hd
      have hb : 1 ≤ bitLen (x / 2) := bitLen_pos (x / 2) hd
      have : 2 ^ (bitLen (x / 2) - 1) * 2 ≤ (x / 2) * 2 := Nat.mul_le_mul_right 2 this
      calc 2 ^ (bitLen (x / 2) + 1 - 1) = 2 ^ (bitLen (x / 2) - 1) * 2 := by
            rw [← pow_succ]
            congr 1
            omega
        _ ≤ x / 2 * 2 := this
        _ ≤ x := by omega

/-! ### MGF1 mask length and byte bounds -/

/-- Well-formedness of a hash capability: positive fixed output size and
byte-valued output, as any real `hash.Hash` satisfies. -/
def HashOK (hLen : Nat) (H : List Nat → List Nat) : Prop :=
  1 ≤ hLen ∧ ∀ s, (H s).length = hLen ∧ ∀ b ∈ H s, b < 256

theorem mgf1MaskF_length (H : List Nat → List Nat) (seed : List Nat) (hLen : Nat)
    (hH : ∀ s, (H s).length = hLen) (h1 : 1 ≤ hLen) :
    ∀ f ctr n, n ≤ f → (mgf1MaskF H seed f ctr n).length = n := by
  intro f
  induction f with
  | zero =>
    intro ctr n h
    interval_cases n
    simp [mgf1MaskF]
  | succ f ih =>
    intro ctr n h
    cases n with
    | zero => simp [mgf1MaskF]
    | succ n =>
      have hd : (H (seed ++ ctr)).length = hLen := hH _
      simp only [mgf1MaskF, hd]
      rw [if_neg (by omega)]
      rw [List.length_append, List.length_take, hd,
        ih (incCounter ctr) (n + 1 - hLen) (by omega)]
      omega

theorem mgf1Mask_length (H : List Nat → List Nat) (seed : List Nat) (hLen : Nat)
    (hH : ∀ s, (H s).length = hLen) (h1 : 1 ≤ hLen) (n : Nat) :
    (mgf1Mask H seed n).length = n :=
  mgf1MaskF_length H seed hLen hH h1 n [0, 0, 0, 0] n (le_refl n)

theorem mgf1MaskF_mem_lt (H : List Nat → List Nat) (seed : List Nat)
    (hH : ∀ s, ∀ b ∈ H s, b < 256) :
    ∀ f ctr n, ∀ b ∈ mgf1MaskF H seed f ctr n, b < 256 := by
  intro f
  induction f with
  | zero =>
    intro ctr n b hb
    simp [mgf1MaskF] at hb
  | succ f ih =>
    intro ctr n b hb
    cases n with
    | zero => simp [mgf1MaskF] at hb
    | succ n =>
      simp only [mgf1MaskF] at hb
      by_cases h0 : (H (seed ++ ctr)).length = 0
      · simp [h0] at hb
      · rw [if_neg h0] at hb
        rcases List.mem_append.mp hb with h | h
        · exact hH _ b (List.mem_of_mem_take h)
        · exact ih _ _ b h

theorem mgf1Mask_mem_lt (H : List Nat → List Nat) (seed : List Nat)
    (hH : ∀ s, ∀ b ∈ H s, b < 256) (n : Nat) :
    ∀ b ∈ mgf1Mask H seed n, b < 256 :=
  mgf1MaskF_mem_lt H seed hH n [0, 0, 0, 0] n

theorem pssDB_length (hLen : Nat) (emBits : Nat) (salt : List Nat)
    (h : hLen + salt.length + 2 ≤ (emBits + 7) / 8) :
    (pssDB hLen emBits salt).length = (emBits + 7) / 8 - hLen - 1 := by
  unfold pssDB
  simp [List.length_append, List.length_replicate]
  omega

/-! ### Shape of the encoder output (claim C8) -/

theorem pssMaskedDB_length (hLen : Nat) (H : List Nat → List Nat)
    (mHash : List Nat) (emBits : Nat) (salt : List Nat)
    (hH : HashOK hLen H) (h : hLen + salt.length + 2 ≤ (emBits + 7) / 8) :
    (pssMaskedDB hLen H mHash emBits salt).length = (emBits + 7) / 8 - hLen - 1 := by
  obtain ⟨h1, hH2⟩ := hH
  unfold pssMaskedDB
  have hm : (mgf1Mask H (pssH H mHash salt) (pssDB hLen emBits salt).length).length =
      (pssDB hLen emBits salt).length :=
    mgf1Mask_length H _ hLen (fun s => (hH2 s).1) h1 _
  have hz : (List.zipWith (fun a b => a ^^^ b) (pssDB hLen emBits salt)
      (mgf1Mask H (pssH H mHash salt) (pssDB hLen emBits salt).length)).length =
      (pssDB hLen emBits salt).length := by
    rw [List.length_zipWith, hm]
    omega
  have hdb := pssDB_length hLen emBits salt h
  split
  · next heq =>
    rw [heq] at hz
    simp at hz
    omega
  · next b bs heq =>
    rw [heq] at hz
    simp only [List.length_cons] at hz ⊢
    omega

/-- Claim C8: on success `emsaPSSEncode` returns a byte string of exactly
`emLen` bytes whose last byte is `0xBC` and whose leftmost
`8·emLen − emBits` bits are zero (the functional embedding makes the result
a fresh value by construction). -/
theorem emsaPSSEncode_shape (hLen : Nat) (H : List Nat → List Nat)
    (mHash : List Nat) (emBits : Nat) (salt em : List Nat)
    (hH : HashOK hLen H)
    (henc : emsaPSSEncode hLen H mHash emBits salt = .ok em) :
    em.length = (emBits + 7) / 8 ∧
      em.getD (em.length - 1) 0 = 0xBC ∧
      em.getD 0 0 < 2 ^ (8 - (8 * ((emBits + 7) / 8) - emBits)) := by
  obtain ⟨h1, hH2⟩ := hH
  unfold emsaPSSEncode at henc
  by_cases hc1 : mHash.length ≠ hLen
  · simp [hc1] at henc
  by_cases hc2 : (emBits + 7) / 8 < hLen + salt.length + 2
  · simp [hc1, hc2] at henc
  simp only [hc1, hc2, if_false, Except.ok.injEq] at henc
  subst henc
  have hmd := pssMaskedDB_length hLen H mHash emBits salt ⟨h1, hH2⟩ (by omega)
  have hhl : (pssH H mHash salt).length = hLen := (hH2 _).1
  have hk : 8 * ((emBits + 7) / 8) - emBits ≤ 7 := by omega
  refine ⟨?_, ?_, ?_⟩
  · simp only [List.length_append, hmd, hhl, List.length_singleton]
    omega
  · rw [show pssMaskedDB hLen H mHash emBits salt ++ pssH H mHash salt ++ [0xBC] =
      (pssMaskedDB hLen H mHash emBits salt ++ pssH H mHash salt) ++ [0xBC] by
        simp [List.append_assoc]]
    rw [List.getD_eq_getElem?_getD]
    have hlen2 : ((pssMaskedDB hLen H mHash emBits salt ++ pssH H mHash salt) ++
        [(0xBC : Nat)]).length - 1 =
        (pssMaskedDB hLen H mHash emBits salt ++ pssH H mHash salt).length := by
      simp
    rw [hlen2, List.getElem?_concat_length]
    rfl
  · have hne : pssMaskedDB hLen H mHash emBits salt ≠ [] := by
      intro hemp
      rw [hemp] at hmd
      simp at hmd
      omega
    obtain ⟨b, bs, hbs⟩ := List.exists_cons_of_ne_nil hne
    have hb : ∃ z zs, pssMaskedDB hLen H mHash emBits salt =
        (z &&& (0xFF >>> (8 * ((emBits + 7) / 8) - emBits))) :: zs := by
      unfold pssMaskedDB
      unfold pssMaskedDB at hne
      split
      · next heq =>
        rw [heq] at hne
        simp at hne
      · next z zs heq =>
        exact ⟨z, zs, rfl⟩
    obtain ⟨z, zs, hz⟩ := hb
    rw [hz]
    simp only [List.cons_append, List.getD_eq_getElem?_getD, List.getElem?_cons_zero,
      Option.getD_some]
    calc z &&& 0xFF >>> (8 * ((emBits + 7) / 8) - emBits)
        ≤ 0xFF >>> (8 * ((emBits + 7) / 8) - emBits) := Nat.and_le_right
      _ < 2 ^ (8 - (8 * ((emBits + 7) / 8) - emBits)) := by
          rw [shiftRight_255 _ (by omega)]
          have : 1 ≤ 2 ^ (8 - (8 * ((emBits + 7) / 8) - emBits)) :=
            Nat.one_le_pow _ _ (by omega)
          omega

/-- Witness for C8 at a concrete hash, digest, salt and bit length. -/
theorem emsaPSSEncode_shape_witness :
    ∃ em, emsaPSSEncode 1 (fun s => [s.foldl (fun a b => a + b) 0 % 256]) [42] 17 [] =
        .ok em ∧
      em.length = 3 ∧ em.getD (em.length - 1) 0 = 0xBC ∧ em.getD 0 0 < 2 ^ 1 := by
  have henc : emsaPSSEncode 1 (fun s => [s.foldl (fun a b => a + b) 0 % 256])
      [42] 17 [] = .ok [1, 42, 188] := by rfl
  refine ⟨[1, 42, 188], henc, ?_⟩
  have := emsaPSSEncode_shape 1 (fun s => [s.foldl (fun a b => a + b) 0 % 256])
    [42] 17 [] [1, 42, 188]
    ⟨by decide, fun s => ⟨rfl, by
      intro b hb
      simp at hb
      subst hb
      exact Nat.mod_lt _ (by decide)⟩⟩
    henc
  simpa using this

/-! ### Extended gcd and `modInverse` (claim C10) -/

theorem egcdF_gcd : ∀ f a b, a ≤ f → (egcdF f a b).1 = Nat.gcd a b := by
  intro f
  induction f with
  | zero =>
    intro a b ha
    interval_cases a
    simp [egcdF]
  | succ f ih =>
    intro a b ha
    cases a with
    | zero => simp [egcdF]
    | succ a =>
      show (egcdF f (b % (a + 1)) (a + 1)).1 = Nat.gcd (a + 1) b
      rw [ih (b % (a + 1)) (a + 1) (by
        have := Nat.mod_lt b (show 0 < a + 1 by omega)
        omega)]
      exact (Nat.gcd_rec (a + 1) b).symm

theorem egcdF_bezout : ∀ (f a b : Nat), a ≤ f →
    (a : Int) * (egcdF f a b).2.1 + (b : Int) * (egcdF f a b).2.2 =
      ((egcdF f a b).1 : Int) := by
  intro f
  induction f with
  | zero =>
    intro a b ha
    interval_cases a
    simp [egcdF]
  | succ f ih =>
    intro a b ha
    cases a with
    | zero => simp [egcdF]
    | succ a =>
      have hmod : b % (a + 1) < a + 1 := Nat.mod_lt b (by omega)
      have hIH := ih (b % (a + 1)) (a + 1) (by omega)
      show (a + 1 : Int) * ((egcdF f (b % (a + 1)) (a + 1)).2.2 -
          ((b / (a + 1) : Nat) : Int) * (egcdF f (b % (a + 1)) (a + 1)).2.1) +
        (b : Int) * (egcdF f (b % (a + 1)) (a + 1)).2.1 =
        ((egcdF f (b % (a + 1)) (a + 1)).1 : Int)
      have hb : ((a + 1 : Nat) : Int) * ((b / (a + 1) : Nat) : Int) +
          ((b % (a + 1) : Nat) : Int) = (b : Int) := by
        exact_mod_cast Nat.div_add_mod b (a + 1)
      push_cast at hIH hb ⊢
      linear_combination hIH - (egcdF f (b % (a + 1)) (a + 1)).2.1 * hb

theorem egcdF_bound : ∀ (f a b : Nat), a ≤ f → a < b →
    (egcdF f a b).2.1.natAbs ≤ b ∧ (egcdF f a b).2.2.natAbs ≤ max a 1 := by
  intro f
  induction f with
  | zero =>
    intro a b ha hb
    interval_cases a
    simp [egcdF]
  | succ f ih =>
    intro a b ha hb
    cases a with
    | zero => simp [egcdF]
    | succ a =>
      have hmod : b % (a + 1) < a + 1 := Nat.mod_lt b (by omega)
      show ((egcdF f (b % (a + 1)) (a + 1)).2.2 -
          ((b / (a + 1) : Nat) : Int) * (egcdF f (b % (a + 1)) (a + 1)).2.1).natAbs ≤ b ∧
        (egcdF f (b % (a + 1)) (a + 1)).2.1.natAbs ≤ max (a + 1) 1
      by_cases hr : b % (a + 1) = 0
      · rw [hr]
        have h0 : egcdF f 0 (a + 1) = ((a + 1 : Nat), 0, 1) := by
          cases f <;> rfl
        rw [h0]
        simp
        omega
      · have hIH := ih (b % (a + 1)) (a + 1) (by omega) hmod
        obtain ⟨hx, hy⟩ := hIH
        constructor
        · calc ((egcdF f (b % (a + 1)) (a + 1)).2.2 -
              ((b / (a + 1) : Nat) : Int) * (egcdF f (b % (a + 1)) (a + 1)).2.1).natAbs
              ≤ (egcdF f (b % (a + 1)) (a + 1)).2.2.natAbs +
                (((b / (a + 1) : Nat) : Int) * (egcdF f (b % (a + 1)) (a + 1)).2.1).natAbs :=
                Int.natAbs_sub_le _ _
            _ = (egcdF f (b % (a + 1)) (a + 1)).2.2.natAbs +
                (b / (a + 1)) * (egcdF f (b % (a + 1)) (a + 1)).2.1.natAbs := by
                rw [Int.natAbs_mul, Int.natAbs_ofNat]
            _ ≤ max (b % (a + 1)) 1 + (b / (a + 1)) * (a + 1) := by
                have h1 : (b / (a + 1)) * (egcdF f (b % (a + 1)) (a + 1)).2.1.natAbs ≤
                    (b / (a + 1)) * (a + 1) := Nat.mul_le_mul_left _ hx
                omega
            _ ≤ b := by
                have h2 : max (b % (a + 1)) 1 = b % (a + 1) := by omega
                have h3 : (a + 1) * (b / (a + 1)) + b % (a + 1) = b := Nat.div_add_mod b (a + 1)
                have h4 : (b / (a + 1)) * (a + 1) = (a + 1) * (b / (a + 1)) :=
                  Nat.mul_comm _ _
                omega
        · omega

theorem egcd_gcd (a b : Nat) : (egcd a b).1 = Nat.gcd a b :=
  egcdF_gcd a a b le_rfl

theorem egcd_bezout (a b : Nat) :
    (a : Int) * (egcd a b).2.1 + (b : Int) * (egcd a b).2.2 = ((egcd a b).1 : Int) :=
  egcdF_bezout a a b le_rfl

theorem egcd_bound (a b : Nat) (h : a < b) :
    (egcd a b).2.1.natAbs ≤ b ∧ (egcd a b).2.2.natAbs ≤ max a 1 :=
  egcdF_bound a a b le_rfl h

theorem modInverse_inv (a n : Nat) (ia : Int) (h : modInverse a n = some ia) :
    (a : Int) * ia ≡ 1 [ZMOD (n : Int)] := by
  unfold modInverse at h
  by_cases hg : (egcd a n).1 ≠ 1
  · simp [hg] at h
  · simp only [hg, if_false, Option.some.injEq] at h
    push_neg at hg
    have hbez := egcd_bezout a n
    rw [hg] at hbez
    have hx : (a : Int) * (egcd a n).2.1 ≡ 1 [ZMOD (n : Int)] := by
      rw [Int.ModEq]
      have : (a : Int) * (egcd a n).2.1 = 1 - (n : Int) * (egcd a n).2.2 := by
        push_cast at hbez
        linarith
      rw [this, Int.sub_emod, Int.mul_emod_right]
      simp
    subst h
    by_cases hlt : (egcd a n).2.1 < 1
    · simp only [hlt, if_true]
      calc (a : Int) * ((egcd a n).2.1 + n) ≡ (a : Int) * (egcd a n).2.1 [ZMOD (n : Int)] := by
            rw [Int.ModEq]
            rw [Int.mul_add, show (a : Int) * (n : Int) = (n : Int) * (a : Int) from
              mul_comm _ _, Int.add_mul_emod_self_left]
        _ ≡ 1 [ZMOD (n : Int)] := hx
    · simpa [hlt] using hx


theorem int_eq_one_of_mul_eq_one (n : Nat) (y : Int) (h : (n : Int) * y = 1) : n = 1 := by
  have h0 : 0 ≤ (n : Int) := Int.ofNat_nonneg n
  have := Int.eq_one_of_mul_eq_one_right h0 h
  exact_mod_cast this

theorem modInverse_range (a n : Nat) (ha : 0 < a) (han : a < n) (ia : Int)
    (h : modInverse a n = some ia) : 0 ≤ ia ∧ ia < (n : Int) := by
  have hn2 : 2 ≤ n := by omega
  unfold modInverse at h
  by_cases hg : (egcd a n).1 ≠ 1
  · simp [hg] at h
  · simp only [hg, if_false, Option.some.injEq] at h
    push_neg at hg
    have hbez := egcd_bezout a n
    rw [hg] at hbez
    push_cast at hbez
    have hbound := (egcd_bound a n han).1
    have habs : |(egcd a n).2.1| ≤ (n : Int) := by
      rw [Int.abs_eq_natAbs]
      exact_mod_cast hbound
    obtain ⟨hlo, hhi⟩ := abs_le.mp habs
    have hx0 : (egcd a n).2.1 ≠ 0 := by
      intro h0
      rw [h0] at hbez
      simp at hbez
      have := int_eq_one_of_mul_eq_one n _ hbez
      omega
    have hxn : (egcd a n).2.1 ≠ (n : Int) := by
      intro h0
      rw [h0] at hbez
      have : (n : Int) * ((a : Int) + (egcd a n).2.2) = 1 := by ring_nf; linarith [hbez]
      have := int_eq_one_of_mul_eq_one n _ this
      omega
    have hxnn : (egcd a n).2.1 ≠ -(n : Int) := by
      intro h0
      rw [h0] at hbez
      have : (n : Int) * ((egcd a n).2.2 - (a : Int)) = 1 := by ring_nf; linarith [hbez]
      have := int_eq_one_of_mul_eq_one n _ this
      omega
    subst h
    by_cases hlt : (egcd a n).2.1 < 1
    · simp only [hlt, if_true]
      constructor
      · have : -(n : Int) < (egcd a n).2.1 := lt_of_le_of_ne hlo (Ne.symm hxnn)
        omega
      · have : (egcd a n).2.1 < 0 := by
          rcases lt_or_eq_of_le (show (egcd a n).2.1 ≤ 0 by omega) with h | h
          · exact h
          · exact absurd h hx0
        omega
    · simp only [hlt, if_false]
      push_neg at hlt
      constructor
      · omega
      · exact lt_of_le_of_ne hhi hxn

/-- Claim C10: for `0 < a < n`, `modInverse` succeeds exactly when
`gcd a n = 1`, and a returned inverse `ia` lies in `[0, n)` and satisfies
`a * ia ≡ 1 (mod n)`. -/
theorem modInverse_spec (a n : Nat) (ha : 0 < a) (han : a < n) :
    ((modInverse a n).isSome ↔ Nat.gcd a n = 1) ∧
      ∀ ia, modInverse a n = some ia →
        0 ≤ ia ∧ ia < (n : Int) ∧ (a : Int) * ia % (n : Int) = 1 := by
  have hn2 : 2 ≤ n := by omega
  constructor
  · rw [← egcd_gcd a n]
    unfold modInverse
    by_cases hg : (egcd a n).1 = 1
    · simp [hg]
    · simp [hg]
  · intro ia h
    obtain ⟨h0, h1⟩ := modInverse_range a n ha han ia h
    refine ⟨h0, h1, ?_⟩
    have hinv := modInverse_inv a n ia h
    rw [Int.ModEq] at hinv
    rw [hinv, Int.emod_eq_of_lt (by omega) (by exact_mod_cast hn2)]

/-- Witness for C10 at `a = 3`, `n = 10`: the inverse is `7`. -/
theorem modInverse_spec_witness :
    (modInverse 3 10).isSome ∧ (0 ≤ (7 : Int) ∧ (7 : Int) < 10 ∧ (3 : Int) * 7 % 10 = 1) := by
  have h := modInverse_spec 3 10 (by decide) (by decide)
  have h7 : modInverse 3 10 = some 7 := by rfl
  exact ⟨h.1.mpr (by decide), h.2 7 h7⟩

/-! ### Concrete toy instances used by the witnesses -/

/-- A 1-byte toy hash (sum of the input bytes mod 256), standing in for the
external hash capability in concrete runs. -/
def toyHash : List Nat → List Nat := fun s => [s.foldl (fun a b => a + b) 0 % 256]

/-- Toy RSA key: `N = 257 * 641 = 164737`, `e = 3`, `d = 427`
(`3 * 427 ≡ 1 mod lcm(256, 640)`), no CRT precomputation. -/
def toyPriv : PrivateKey :=
  { N := 164737, E := 3, D := 427, Primes := [257, 641], Precomputed := none }

/-- The toy key with its CRT data precomputed:
`Dp = 427 mod 256`, `Dq = 427 mod 640`, `Qinv = 641⁻¹ mod 257`. -/
def toyPrivCRT : PrivateKey :=
  { N := 164737, E := 3, D := 427, Primes := [257, 641],
    Precomputed := some { Dp := 171, Dq := 427, Qinv := 85, CRTValues := [] } }

/-- A three-prime toy key (primes 257, 641, 769) exercising the multi-prime
CRT loop: `R = 257 * 641`, `Coeff = R⁻¹ mod 769 = 9`. -/
def toyPriv3 : PrivateKey :=
  { N := 126682753, E := 3, D := 427, Primes := [257, 641, 769],
    Precomputed := some
      { Dp := 171, Dq := 427, Qinv := 85,
        CRTValues := [{ Exp := 427, Coeff := 9, R := 164737 }] } }

/-- The public half of the toy key. -/
def toyPub : PublicKey := { N := 164737, E := 3 }

/-! ### Error taxonomy of `decrypt` (claim C2) -/

theorem blindLoop_cases (N : Nat) (draws : List Nat) :
    (∃ p, blindLoop N draws = .ok p) ∨ blindLoop N draws = .error RsaError.randFailure := by
  induction draws with
  | nil => right; rfl
  | cons r rest ih =>
    cases h : modInverse (if r = 0 then 1 else r) N with
    | none =>
      have : blindLoop N (r :: rest) = blindLoop N rest := by
        simp [blindLoop, h]
      rw [this]
      exact ih
    | some ir =>
      left
      exact ⟨(if r = 0 then 1 else r, ir), by simp [blindLoop, h]⟩

/-- Claim C2 (amended): `decrypt` returns `ErrDecryption` exactly when the
ciphertext strictly exceeds the modulus — the source guard is `c > N`, so
`c = N` is not rejected; no other path produces that error. -/
theorem decrypt_decryptionError_iff (random : Option (List Nat))
    (priv : PrivateKey) (c : Nat) :
    decrypt random priv c = .error RsaError.decryption ↔ priv.N < c := by
  constructor
  · intro h
    by_contra hc
    cases random with
    | none => simp [decrypt, hc] at h
    | some draws =>
      rcases blindLoop_cases priv.N draws with ⟨⟨r, ir⟩, hp⟩ | hp
      · simp [decrypt, hc, hp] at h
      · simp [decrypt, hc, hp] at h
  · intro h
    simp [decrypt, h]

set_option maxRecDepth 200000 in
/-- Counterexample to C2 as stated: at `c = N` (so `c ≥ N`) the toy key
decrypts to `0` instead of returning the decryption error. -/
theorem decrypt_at_modulus_accepted :
    decrypt none toyPriv toyPriv.N = .ok 0 ∧
      decrypt none toyPriv toyPriv.N ≠ .error RsaError.decryption := by
  have h1 : decrypt none toyPriv toyPriv.N = .ok 0 := by rfl
  exact ⟨h1, fun h => Except.noConfusion (h1.symm.trans h)⟩

/-! ### Oversized signatures are not rejected (claim C3) -/

set_option maxRecDepth 400000 in
/-- Evaluation of the code at the C3 failing input: the valid signature of
digest `[42]` under the toy key is `[0, 214, 2]` (value 54786); the byte
string `[3, 89, 131]` has value `54786 + N > N`, yet `VerifyPSS` accepts it,
because `encrypt` reduces the signature value modulo `N` and no length or
range check rejects it first. -/
theorem VerifyPSS_accepts_oversized_sig :
    SignPSS none toyPriv 1 toyHash [42] [] = .ok [0, 214, 2] ∧
      fromBytes [3, 89, 131] = fromBytes [0, 214, 2] + toyPub.N ∧
      toyPub.N < fromBytes [3, 89, 131] ∧
      VerifyPSS toyPub 1 toyHash [42] [3, 89, 131] 0 = .ok () := by
  refine ⟨by rfl, by decide, by decide, by rfl⟩

/-! ### Modular-arithmetic helpers -/

theorem natModEq_to_int {n a b : Nat} (h : a ≡ b [MOD n]) :
    (a : Int) ≡ (b : Int) [ZMOD (n : Int)] := by
  unfold Nat.ModEq at h
  unfold Int.ModEq
  exact_mod_cast h

theorem int_eq_of_modEq_of_lt {n a b : Int} (h : a ≡ b [ZMOD n])
    (ha0 : 0 ≤ a) (han : a < n) (hb0 : 0 ≤ b) (hbn : b < n) : a = b := by
  obtain ⟨k, hk⟩ := h.dvd
  have hk0 : k = 0 := by
    by_contra hne
    rcases lt_or_gt_of_ne hne with hlt | hgt
    · have h1 : k ≤ -1 := by omega
      have h2 : n * k ≤ n * (-1) := by
        apply mul_le_mul_of_nonneg_left h1
        omega
      omega
    · have h1 : 1 ≤ k := by omega
      have h2 : n * 1 ≤ n * k := by
        apply mul_le_mul_of_nonneg_left h1
        omega
      omega
  rw [hk0, mul_zero] at hk
  omega

theorem pow_eq_pow_aux (p : Nat) [Fact p.Prime] (z : ZMod p) (d k : Nat) (hd : 1 ≤ d) :
    z ^ (d + k * (p - 1)) = z ^ d := by
  by_cases hz : z = 0
  · have hp2 : 2 ≤ p := Nat.Prime.two_le (Fact.out)
    rw [hz, zero_pow (by omega), zero_pow (by omega)]
  · rw [pow_add, show k * (p - 1) = (p - 1) * k from Nat.mul_comm _ _, pow_mul,
      ZMod.pow_card_sub_one_eq_one hz, one_pow, mul_one]

/-- Fermat-type congruence: exponents congruent modulo `p - 1` and positive
give the same power modulo a prime `p`. -/
theorem pow_congr_exp_prime (p : Nat) (hp : p.Prime) (c d e : Nat)
    (hd : 1 ≤ d) (he : 1 ≤ e) (hde : d ≡ e [MOD p - 1]) :
    c ^ d ≡ c ^ e [MOD p] := by
  haveI : Fact p.Prime := ⟨hp⟩
  rw [← ZMod.natCast_eq_natCast_iff]
  push_cast
  rcases Nat.le_total d e with hle | hle
  · obtain ⟨k, hk⟩ := (Nat.modEq_iff_dvd' hle).mp hde
    have he2 : e = d + k * (p - 1) := by
      rw [Nat.mul_comm]
      omega
    rw [he2, pow_eq_pow_aux p _ d k hd]
  · obtain ⟨k, hk⟩ := (Nat.modEq_iff_dvd' hle).mp hde.symm
    have hd2 : d = e + k * (p - 1) := by
      rw [Nat.mul_comm]
      omega
    rw [hd2, pow_eq_pow_aux p _ e k he]

theorem natModEq_list_prod (l : List Nat) (a b : Nat)
    (hco : l.Pairwise Nat.Coprime) (h : ∀ p ∈ l, a ≡ b [MOD p]) :
    a ≡ b [MOD l.prod] := by
  induction l with
  | nil => simp [Nat.modEq_one]
  | cons p t ih =>
    rw [List.prod_cons]
    rcases List.pairwise_cons.mp hco with ⟨hp, ht⟩
    have h1 : a ≡ b [MOD p] := h p (by simp)
    have h2 : a ≡ b [MOD t.prod] := ih ht (fun q hq => h q (by simp [hq]))
    have hcop : Nat.Coprime p t.prod := Nat.coprime_list_prod_right_iff.mpr hp
    exact (Nat.modEq_and_modEq_iff_modEq_mul hcop).mp ⟨h1, h2⟩

theorem intModEq_mul_coprime (m n : Nat) (a b : Int) (hco : Nat.Coprime m n)
    (h1 : a ≡ b [ZMOD (m : Int)]) (h2 : a ≡ b [ZMOD (n : Int)]) :
    a ≡ b [ZMOD ((m * n : Nat) : Int)] := by
  rw [Int.modEq_iff_dvd] at h1 h2 ⊢
  push_cast
  exact (Nat.isCoprime_iff_coprime.mpr hco).mul_dvd h1 h2

/-! ### Key-consistency predicates (§3 of the data model) -/

/-- The prime factorisation invariant of a private key: pairwise coprime
prime factors whose product is the modulus, at least two of them. -/
def PrimesOK (priv : PrivateKey) : Prop :=
  priv.Primes.Pairwise Nat.Coprime ∧ (∀ p ∈ priv.Primes, Nat.Prime p) ∧
    priv.N = priv.Primes.prod ∧ 2 ≤ priv.Primes.length

/-- Consistency of the extra CRT triples, each relative to the product `P`
of all earlier primes, exactly as `rsa.Precompute` fills them. -/
def crtChainOK (D : Nat) : Nat → List Nat → List CRTValue → Prop
  | _, [], [] => True
  | P, r :: rs, v :: vs =>
    1 ≤ v.Exp ∧ v.Exp ≡ D [MOD r - 1] ∧ v.R = P ∧ v.Coeff * v.R ≡ 1 [MOD r] ∧
      crtChainOK D (P * r) rs vs
  | _, _, _ => False

/-- Consistency of the precomputed CRT data with `N`, `D` and the primes
(trivially true when no data is precomputed). -/
def CRTOK (priv : PrivateKey) : Prop :=
  match priv.Precomputed with
  | none => True
  | some pc =>
    match priv.Primes with
    | p :: q :: rest =>
      1 ≤ pc.Dp ∧ pc.Dp ≡ priv.D [MOD p - 1] ∧
        1 ≤ pc.Dq ∧ pc.Dq ≡ priv.D [MOD q - 1] ∧
        pc.Qinv * q ≡ 1 [MOD p] ∧
        crtChainOK priv.D (p * q) rest pc.CRTValues
    | _ => False

/-- A structurally consistent private key (the §3 invariant assumed by the
spec: not verified by the code, the caller's responsibility). -/
def KeyOK (priv : PrivateKey) : Prop :=
  PrimesOK priv ∧ 1 ≤ priv.D ∧ CRTOK priv

/-! ### Correctness of the CRT combination (Garner loop) -/

theorem crtStep_eq (c : Nat) (m : Int) (r : Nat) (v : CRTValue) (hr : 0 < r) :
    crtStep c m (r, v) =
      m + (((c ^ v.Exp % r : Nat) : Int) - m) * (v.Coeff : Int) % (r : Int) * (v.R : Int) := by
  have hrz : (r : Int) ≠ 0 := by exact_mod_cast hr.ne'
  have ht : 0 ≤ (((c ^ v.Exp % r : Nat) : Int) - m) * (v.Coeff : Int) % (r : Int) :=
    Int.emod_nonneg _ hrz
  show m + (if (((c ^ v.Exp % r : Nat) : Int) - m) * (v.Coeff : Int) % (r : Int) < 0
      then (((c ^ v.Exp % r : Nat) : Int) - m) * (v.Coeff : Int) % (r : Int) + (r : Int)
      else (((c ^ v.Exp % r : Nat) : Int) - m) * (v.Coeff : Int) % (r : Int)) * (v.R : Int) = _
  rw [if_neg (not_lt.mpr ht)]

theorem crtFold (c D : Nat) (hD : 1 ≤ D) :
    ∀ (rs : List Nat) (vs : List CRTValue) (P : Nat) (m : Int),
      crtChainOK D P rs vs →
      (∀ r ∈ rs, Nat.Prime r) →
      (∀ r ∈ rs, Nat.Coprime P r) →
      rs.Pairwise Nat.Coprime →
      1 ≤ P →
      0 ≤ m → m < (P : Int) →
      m ≡ ((c ^ D : Nat) : Int) [ZMOD (P : Int)] →
      ((List.zip rs vs).foldl (crtStep c) m ≡ ((c ^ D : Nat) : Int)
          [ZMOD ((P * rs.prod : Nat) : Int)] ∧
        0 ≤ (List.zip rs vs).foldl (crtStep c) m ∧
        (List.zip rs vs).foldl (crtStep c) m < ((P * rs.prod : Nat) : Int)) := by
  intro rs
  induction rs with
  | nil =>
    intro vs P m hchain hprimes hco hpair hP hm0 hmP hmod
    simp only [List.zip_nil_left, List.foldl_nil, List.prod_nil, Nat.mul_one]
    exact ⟨hmod, hm0, hmP⟩
  | cons r rs ih =>
    intro vs P m hchain hprimes hco hpair hP hm0 hmP hmod
    cases vs with
    | nil => simp [crtChainOK] at hchain
    | cons v vs =>
      simp only [crtChainOK] at hchain
      obtain ⟨hexp1, hexpc, hR, hcoeff, hchain2⟩ := hchain
      have hrp : r.Prime := hprimes r (by simp)
      have hr2 : 2 ≤ r := hrp.two_le
      have hrz : (r : Int) ≠ 0 := by
        have : (0 : Int) < r := by exact_mod_cast (by omega : 0 < r)
        omega
      have hrpos : (0 : Int) < (r : Int) := by exact_mod_cast (by omega : 0 < r)
      have ht0 : 0 ≤ (((c ^ v.Exp % r : Nat) : Int) - m) * (v.Coeff : Int) % (r : Int) :=
        Int.emod_nonneg _ hrz
      have htr : (((c ^ v.Exp % r : Nat) : Int) - m) * (v.Coeff : Int) % (r : Int) < r :=
        Int.emod_lt_of_pos _ hrpos
      have hstep : crtStep c m (r, v) =
          m + (((c ^ v.Exp % r : Nat) : Int) - m) * (v.Coeff : Int) % (r : Int) * (P : Int) := by
        rw [crtStep_eq c m r v (by omega), hR]
      have hPpos : (0 : Int) < (P : Int) := by exact_mod_cast (by omega : 0 < P)
      -- abbreviate the reduced multiplier
      have hm1P : crtStep c m (r, v) ≡ m [ZMOD (P : Int)] := by
        rw [hstep, Int.modEq_iff_dvd]
        exact ⟨-((((c ^ v.Exp % r : Nat) : Int) - m) * (v.Coeff : Int) % (r : Int)), by ring⟩
      have hm1modP : crtStep c m (r, v) ≡ ((c ^ D : Nat) : Int) [ZMOD (P : Int)] :=
        hm1P.trans hmod
      -- modulo r the step lands on c^D
      have hm1modr : crtStep c m (r, v) ≡ ((c ^ D : Nat) : Int) [ZMOD (r : Int)] := by
        rw [hstep]
        have e1 : (((c ^ v.Exp % r : Nat) : Int) - m) * (v.Coeff : Int) % (r : Int) ≡
            (((c ^ v.Exp % r : Nat) : Int) - m) * (v.Coeff : Int) [ZMOD (r : Int)] :=
          Int.emod_emod_of_dvd _ dvd_rfl
        have e2 : (v.Coeff : Int) * (P : Int) ≡ 1 [ZMOD (r : Int)] := by
          have := natModEq_to_int (hR ▸ hcoeff)
          push_cast at this
          exact this
        have e3 : ((c ^ v.Exp % r : Nat) : Int) ≡ ((c ^ D : Nat) : Int) [ZMOD (r : Int)] := by
          have hx : (c ^ v.Exp % r : Nat) ≡ c ^ D [MOD r] :=
            (Nat.mod_modEq _ _).trans (pow_congr_exp_prime r hrp c v.Exp D hexp1 hD hexpc)
          exact natModEq_to_int hx
        calc m + (((c ^ v.Exp % r : Nat) : Int) - m) * (v.Coeff : Int) % (r : Int) * (P : Int)
            ≡ m + (((c ^ v.Exp % r : Nat) : Int) - m) * (v.Coeff : Int) * (P : Int)
              [ZMOD (r : Int)] := (Int.ModEq.refl m).add (e1.mul (Int.ModEq.refl _))
          _ = m + (((c ^ v.Exp % r : Nat) : Int) - m) * ((v.Coeff : Int) * (P : Int)) := by
              ring
          _ ≡ m + (((c ^ v.Exp % r : Nat) : Int) - m) * 1 [ZMOD (r : Int)] :=
              (Int.ModEq.refl m).add ((Int.ModEq.refl _).mul e2)
          _ = ((c ^ v.Exp % r : Nat) : Int) := by ring
          _ ≡ ((c ^ D : Nat) : Int) [ZMOD (r : Int)] := e3
      -- combined modulus
      have hcoP : Nat.Coprime P r := hco r (by simp)
      have hm1mod : crtStep c m (r, v) ≡ ((c ^ D : Nat) : Int) [ZMOD ((P * r : Nat) : Int)] :=
        intModEq_mul_coprime P r _ _ hcoP hm1modP hm1modr
      -- ranges
      have hm1lo : 0 ≤ crtStep c m (r, v) := by
        rw [hstep]
        have := mul_nonneg ht0 (le_of_lt hPpos)
        omega
      have hm1hi : crtStep c m (r, v) < ((P * r : Nat) : Int) := by
        rw [hstep, show ((P * r : Nat) : Int) = (P : Int) * (r : Int) by push_cast; ring]
        have h1 : (((c ^ v.Exp % r : Nat) : Int) - m) * (v.Coeff : Int) % (r : Int) ≤
            (r : Int) - 1 := by omega
        have h2 : (((c ^ v.Exp % r : Nat) : Int) - m) * (v.Coeff : Int) % (r : Int) * (P : Int) ≤
            ((r : Int) - 1) * (P : Int) := mul_le_mul_of_nonneg_right h1 (le_of_lt hPpos)
        nlinarith
      -- the rest of the loop via the induction hypothesis at P * r
      have hco2 : ∀ x ∈ rs, Nat.Coprime (P * r) x := by
        intro x hx
        have h1 : Nat.Coprime P x := hco x (by simp [hx])
        have h2 : Nat.Coprime r x := (List.pairwise_cons.mp hpair).1 x hx
        exact Nat.Coprime.mul h1 h2
      have hres := ih vs (P * r) (crtStep c m (r, v)) hchain2
        (fun x hx => hprimes x (by simp [hx])) hco2
        (List.pairwise_cons.mp hpair).2 (Nat.mul_pos (by omega) (by omega))
        hm1lo (by exact_mod_cast hm1hi) (by exact_mod_cast hm1mod)
      rw [List.zip_cons_cons, List.foldl_cons]
      have hprodeq : (P * (r :: rs).prod : Nat) = ((P * r) * rs.prod : Nat) := by
        rw [List.prod_cons]
        ring
      rw [hprodeq]
      exact hres

theorem decryptCore_crt_eq (priv : PrivateKey) (pc : PrecomputedCRT)
    (p q : Nat) (rest : List Nat) (c : Nat)
    (hpc : priv.Precomputed = some pc) (hpr : priv.Primes = p :: q :: rest) :
    decryptCore priv c =
      (List.zip rest pc.CRTValues).foldl (crtStep c)
        ((if ((c ^ pc.Dp % p : Nat) : Int) - ((c ^ pc.Dq % q : Nat) : Int) < 0
            then ((c ^ pc.Dp % p : Nat) : Int) - ((c ^ pc.Dq % q : Nat) : Int) + (p : Int)
            else ((c ^ pc.Dp % p : Nat) : Int) - ((c ^ pc.Dq % q : Nat) : Int)) *
          (pc.Qinv : Int) % (p : Int) * (q : Int) + ((c ^ pc.Dq % q : Nat) : Int)) := by
  simp only [decryptCore, hpc, hpr]

/-- The exponentiation path of `decrypt` on a consistent key computes the
plain full-modulus power `c ^ D mod N`, whichever path is taken. -/
theorem decryptCore_eq_pow (priv : PrivateKey) (hk : KeyOK priv) (c : Nat) :
    decryptCore priv c = ((c ^ priv.D % priv.N : Nat) : Int) := by
  obtain ⟨⟨hpair, hprime, hNprod, hlen⟩, hD, hcrt⟩ := hk
  cases hpc : priv.Precomputed with
  | none => simp [decryptCore, hpc]
  | some pc =>
    cases hpr : priv.Primes with
    | nil => simp [CRTOK, hpc, hpr] at hcrt
    | cons p tail =>
      cases tail with
      | nil => simp [CRTOK, hpc, hpr] at hcrt
      | cons q rest =>
        simp only [CRTOK, hpc, hpr] at hcrt
        obtain ⟨hDp1, hDpc, hDq1, hDqc, hQinv, hchain⟩ := hcrt
        rw [hpr] at hpair hprime hNprod
        have hpp : p.Prime := hprime p (by simp)
        have hqp : q.Prime := hprime q (by simp)
        have hp2 : 2 ≤ p := hpp.two_le
        have hq2 : 2 ≤ q := hqp.two_le
        have hpz : (p : Int) ≠ 0 := by
          have : (0 : Int) < p := by exact_mod_cast (by omega : 0 < p)
          omega
        have hppos : (0 : Int) < (p : Int) := by exact_mod_cast (by omega : 0 < p)
        have hqpos : (0 : Int) < (q : Int) := by exact_mod_cast (by omega : 0 < q)
        rw [decryptCore_crt_eq priv pc p q rest c hpc hpr]
        set A : Int := ((c ^ pc.Dp % p : Nat) : Int) with hA
        set B : Int := ((c ^ pc.Dq % q : Nat) : Int) with hB
        set t2 : Int := (if A - B < 0 then A - B + (p : Int) else A - B) *
          (pc.Qinv : Int) % (p : Int) with ht2
        set m0 : Int := t2 * (q : Int) + B with hm0
        set X : Int := ((c ^ priv.D : Nat) : Int) with hX
        have ht2a : 0 ≤ t2 := Int.emod_nonneg _ hpz
        have ht2b : t2 < (p : Int) := Int.emod_lt_of_pos _ hppos
        have hB0 : 0 ≤ B := by
          rw [hB]
          exact_mod_cast Nat.zero_le _
        have hBq : B < (q : Int) := by
          rw [hB]
          exact_mod_cast Nat.mod_lt _ (show 0 < q by omega)
        have hm0a : 0 ≤ m0 := by
          rw [hm0]
          have := mul_nonneg ht2a (le_of_lt hqpos)
          omega
        have hm0b : m0 < (p : Int) * (q : Int) := by
          rw [hm0]
          have h1 : t2 * (q : Int) ≤ ((p : Int) - 1) * (q : Int) :=
            mul_le_mul_of_nonneg_right (by omega) (le_of_lt hqpos)
          nlinarith
        have hm0q : m0 ≡ X [ZMOD (q : Int)] := by
          have h1 : m0 ≡ B [ZMOD (q : Int)] := by
            rw [Int.modEq_iff_dvd]
            exact ⟨-t2, by rw [hm0]; ring⟩
          have h2 : B ≡ X [ZMOD (q : Int)] := by
            rw [hB, hX]
            exact natModEq_to_int ((Nat.mod_modEq _ _).trans
              (pow_congr_exp_prime q hqp c pc.Dq priv.D hDq1 hD hDqc))
          exact h1.trans h2
        have hm0p : m0 ≡ X [ZMOD (p : Int)] := by
          have h1 : (if A - B < 0 then A - B + (p : Int) else A - B) ≡ A - B
              [ZMOD (p : Int)] := by
            split
            · rw [Int.modEq_iff_dvd]
              exact ⟨-1, by ring⟩
            · exact Int.ModEq.refl _
          have h2 : t2 ≡ (A - B) * (pc.Qinv : Int) [ZMOD (p : Int)] := by
            rw [ht2]
            exact (Int.emod_emod_of_dvd _ dvd_rfl).trans (h1.mul (Int.ModEq.refl _))
          have h3 : (pc.Qinv : Int) * (q : Int) ≡ 1 [ZMOD (p : Int)] := by
            have := natModEq_to_int hQinv
            push_cast at this
            exact this
          have h4 : m0 ≡ (A - B) * (pc.Qinv : Int) * (q : Int) + B [ZMOD (p : Int)] := by
            rw [hm0]
            exact (h2.mul (Int.ModEq.refl _)).add (Int.ModEq.refl _)
          have h5 : (A - B) * (pc.Qinv : Int) * (q : Int) + B ≡ (A - B) * 1 + B
              [ZMOD (p : Int)] := by
            have := ((Int.ModEq.refl (A - B)).mul h3).add (Int.ModEq.refl B)
            calc (A - B) * (pc.Qinv : Int) * (q : Int) + B
                = (A - B) * ((pc.Qinv : Int) * (q : Int)) + B := by ring
              _ ≡ (A - B) * 1 + B [ZMOD (p : Int)] := this
          have h6 : (A - B) * 1 + B = A := by ring
          have h7 : A ≡ X [ZMOD (p : Int)] := by
            rw [hA, hX]
            exact natModEq_to_int ((Nat.mod_modEq _ _).trans
              (pow_congr_exp_prime p hpp c pc.Dp priv.D hDp1 hD hDpc))
          have h8 : (A - B) * 1 + B ≡ X [ZMOD (p : Int)] := by
            rw [h6]
            exact h7
          exact h4.trans (h5.trans h8)
        have hcopq : Nat.Coprime p q := (List.pairwise_cons.mp hpair).1 q (by simp)
        have hm0mod : m0 ≡ X [ZMOD ((p * q : Nat) : Int)] :=
          intModEq_mul_coprime p q _ _ hcopq hm0p hm0q
        have hco2 : ∀ r ∈ rest, Nat.Coprime (p * q) r := by
          intro r hr
          have h1 : Nat.Coprime p r := (List.pairwise_cons.mp hpair).1 r (by simp [hr])
          have h2 : Nat.Coprime q r :=
            (List.pairwise_cons.mp (List.pairwise_cons.mp hpair).2).1 r hr
          exact Nat.Coprime.mul h1 h2
        have hres := crtFold c priv.D hD rest pc.CRTValues (p * q) m0 hchain
          (fun r hr => hprime r (by simp [hr])) hco2
          (List.pairwise_cons.mp (List.pairwise_cons.mp hpair).2).2
          (Nat.mul_pos (by omega) (by omega)) hm0a
          (by rw [show ((p * q : Nat) : Int) = (p : Int) * (q : Int) by push_cast; ring]
              exact hm0b)
          hm0mod
        obtain ⟨hFmod, hF0, hFlt⟩ := hres
        have hNeq : (p * q) * rest.prod = priv.N := by
          rw [hNprod]
          simp only [List.prod_cons]
          ring
        rw [hNeq] at hFmod hFlt
        have hrestpos : 0 < rest.prod := by
          apply List.prod_pos
          intro x hx
          exact (hprime x (by simp [hx])).pos
        have hNpos : (0 : Int) < (priv.N : Int) := by
          have h1 : 0 < priv.N := by
            rw [← hNeq]
            exact Nat.mul_pos (Nat.mul_pos (by omega) (by omega)) hrestpos
          exact_mod_cast h1
        have hYmod : ((c ^ priv.D % priv.N : Nat) : Int) = X % (priv.N : Int) := by
          rw [hX]
          push_cast
          rfl
        apply int_eq_of_modEq_of_lt (n := (priv.N : Int)) _ hF0 hFlt
        · rw [hYmod]
          exact Int.emod_nonneg _ (by omega)
        · rw [hYmod]
          exact Int.emod_lt_of_pos _ hNpos
        · rw [hYmod]
          exact hFmod.trans (Int.emod_emod_of_dvd _ dvd_rfl).symm

theorem keyN_pos (priv : PrivateKey) (h : PrimesOK priv) : 0 < priv.N := by
  obtain ⟨_, hprime, hNprod, _⟩ := h
  rw [hNprod]
  exact List.prod_pos (fun x hx => (hprime x hx).pos)

/-- Claim C4: on a private key whose precomputed CRT data is consistent with
`N`, `D` and the primes, the CRT path of `decrypt` returns exactly the
direct full-modulus exponentiation `c ^ D mod N`. -/
theorem decrypt_crt_eq_direct (priv : PrivateKey) (pc : PrecomputedCRT)
    (hpc : priv.Precomputed = some pc) (hk : KeyOK priv) (c : Nat)
    (hc : c < priv.N) :
    decrypt none priv c = .ok ((c ^ priv.D % priv.N : Nat)) := by
  unfold decrypt
  rw [if_neg (by omega)]
  rw [decryptCore_eq_pow priv hk c]

set_option maxRecDepth 400000 in
/-- Witness for C4: the three-prime toy key, exercising both the two-prime
combination and the multi-prime loop. -/
theorem decrypt_crt_eq_direct_witness :
    decrypt none toyPriv3 9999999 = .ok ((9999999 ^ 427 % 126682753 : Nat)) := by
  refine decrypt_crt_eq_direct toyPriv3
    { Dp := 171, Dq := 427, Qinv := 85,
      CRTValues := [{ Exp := 427, Coeff := 9, R := 164737 }] }
    rfl ⟨⟨by decide, by decide, by decide, by decide⟩, by decide, ?_⟩ 9999999 (by decide)
  exact ⟨by decide, by decide, by decide, by decide, by decide,
    by decide, by decide, rfl, by decide, trivial⟩

/-! ### Blinding does not change the result (claim C5) -/

theorem pow_mul_self_modEq (priv : PrivateKey)
    (hpr : PrimesOK priv) (hD : 1 ≤ priv.D) (hE : 1 ≤ priv.E)
    (hED : ∀ p ∈ priv.Primes, priv.E * priv.D ≡ 1 [MOD p - 1]) (x : Nat) :
    x ^ (priv.E * priv.D) ≡ x [MOD priv.N] := by
  obtain ⟨hpair, hprime, hNprod, _⟩ := hpr
  rw [hNprod]
  apply natModEq_list_prod _ _ _ hpair
  intro p hp
  have h := pow_congr_exp_prime p (hprime p hp) x (priv.E * priv.D) 1
    (Nat.mul_pos (by omega) (by omega)) (le_refl 1) (hED p hp)
  simpa using h

theorem blindLoop_ok_inv (N : Nat) (draws : List Nat) (r : Nat) (ir : Int)
    (h : blindLoop N draws = .ok (r, ir)) : modInverse r N = some ir := by
  induction draws with
  | nil => simp [blindLoop] at h
  | cons r0 rest ih =>
    cases hmi : modInverse (if r0 = 0 then 1 else r0) N with
    | none =>
      have : blindLoop N (r0 :: rest) = blindLoop N rest := by
        simp [blindLoop, hmi]
      rw [this] at h
      exact ih h
    | some ir0 =>
      have : blindLoop N (r0 :: rest) = .ok (if r0 = 0 then 1 else r0, ir0) := by
        simp [blindLoop, hmi]
      rw [this] at h
      simp only [Except.ok.injEq, Prod.mk.injEq] at h
      rw [← h.1, ← h.2]
      exact hmi

theorem decrypt_guard_error (random : Option (List Nat)) (priv : PrivateKey) (c : Nat)
    (hg : priv.N < c) : decrypt random priv c = .error RsaError.decryption := by
  simp [decrypt, hg]

theorem decrypt_none_eq (priv : PrivateKey) (c : Nat) (hg : ¬ priv.N < c) :
    decrypt none priv c = .ok (decryptCore priv c) := by
  simp [decrypt, hg]

theorem decrypt_some_of_blind_error (priv : PrivateKey) (c : Nat) (draws : List Nat)
    (e : RsaError) (hg : ¬ priv.N < c) (hbl : blindLoop priv.N draws = .error e) :
    decrypt (some draws) priv c = .error e := by
  simp [decrypt, hg, hbl]

theorem decrypt_some_of_blind_ok (priv : PrivateKey) (c : Nat) (draws : List Nat)
    (r : Nat) (ir : Int) (hg : ¬ priv.N < c)
    (hbl : blindLoop priv.N draws = .ok (r, ir)) :
    decrypt (some draws) priv c =
      .ok (decryptCore priv (c * (r ^ priv.E % priv.N) % priv.N) * ir % (priv.N : Int)) := by
  simp [decrypt, hg, hbl]

theorem decrypt_ok_not_guard (random : Option (List Nat)) (priv : PrivateKey)
    (c : Nat) (m : Int) (h : decrypt random priv c = .ok m) : ¬ priv.N < c := by
  intro hg
  rw [decrypt_guard_error random priv c hg] at h
  exact Except.noConfusion h

/-- Whatever random source is supplied, a successful `decrypt` returns the
plain power `c ^ D mod N` on a consistent key with valid exponents. -/
theorem decrypt_ok_eq (priv : PrivateKey) (hk : KeyOK priv)
    (hE : 1 ≤ priv.E)
    (hED : ∀ p ∈ priv.Primes, priv.E * priv.D ≡ 1 [MOD p - 1])
    (random : Option (List Nat)) (c : Nat) (m : Int)
    (h : decrypt random priv c = .ok m) :
    m = ((c ^ priv.D % priv.N : Nat) : Int) := by
  have hD : 1 ≤ priv.D := hk.2.1
  have hNpos : 0 < priv.N := keyN_pos priv hk.1
  have hNz : (priv.N : Int) ≠ 0 := by
    have : (0 : Int) < (priv.N : Int) := by exact_mod_cast hNpos
    omega
  have hNipos : (0 : Int) < (priv.N : Int) := by exact_mod_cast hNpos
  have hguard : ¬ priv.N < c := decrypt_ok_not_guard random priv c m h
  cases random with
  | none =>
    rw [decrypt_none_eq priv c hguard, decryptCore_eq_pow priv hk] at h
    exact (Except.ok.injEq _ _ ▸ h).symm
  | some draws =>
    cases hbl : blindLoop priv.N draws with
    | error e =>
      rw [decrypt_some_of_blind_error priv c draws e hguard hbl] at h
      exact Except.noConfusion h
    | ok pr =>
      obtain ⟨r, ir⟩ := pr
      rw [decrypt_some_of_blind_ok priv c draws r ir hguard hbl] at h
      simp only [Except.ok.injEq] at h
      subst h
      have hinv : (r : Int) * ir ≡ 1 [ZMOD (priv.N : Int)] :=
        modInverse_inv r priv.N ir (blindLoop_ok_inv priv.N draws r ir hbl)
      have hA : (c * (r ^ priv.E % priv.N) % priv.N) ^ priv.D ≡
          c ^ priv.D * r ^ (priv.E * priv.D) [MOD priv.N] := by
        have h1 : c * (r ^ priv.E % priv.N) % priv.N ≡ c * r ^ priv.E [MOD priv.N] :=
          (Nat.mod_modEq _ _).trans (Nat.ModEq.mul_left c (Nat.mod_modEq _ _))
        have h2 := h1.pow priv.D
        have h3 : (c * r ^ priv.E) ^ priv.D = c ^ priv.D * r ^ (priv.E * priv.D) := by
          rw [mul_pow, pow_mul]
        rw [h3] at h2
        exact h2
      have hr : r ^ (priv.E * priv.D) ≡ r [MOD priv.N] :=
        pow_mul_self_modEq priv hk.1 hD hE hED r
      have hmod : decryptCore priv (c * (r ^ priv.E % priv.N) % priv.N) * ir %
          (priv.N : Int) ≡ ((c ^ priv.D % priv.N : Nat) : Int) [ZMOD (priv.N : Int)] := by
        rw [decryptCore_eq_pow priv hk]
        have e2 : (((c * (r ^ priv.E % priv.N) % priv.N) ^ priv.D % priv.N : Nat) : Int) ≡
            ((c ^ priv.D * r ^ (priv.E * priv.D) : Nat) : Int) [ZMOD (priv.N : Int)] :=
          natModEq_to_int ((Nat.mod_modEq _ _).trans hA)
        have e3 : ((r ^ (priv.E * priv.D) : Nat) : Int) ≡ ((r : Nat) : Int)
            [ZMOD (priv.N : Int)] := natModEq_to_int hr
        calc (((c * (r ^ priv.E % priv.N) % priv.N) ^ priv.D % priv.N : Nat) : Int) *
            ir % (priv.N : Int)
            ≡ (((c * (r ^ priv.E % priv.N) % priv.N) ^ priv.D % priv.N : Nat) : Int) * ir
              [ZMOD (priv.N : Int)] := Int.emod_emod_of_dvd _ dvd_rfl
          _ ≡ ((c ^ priv.D * r ^ (priv.E * priv.D) : Nat) : Int) * ir
              [ZMOD (priv.N : Int)] := e2.mul (Int.ModEq.refl ir)
          _ = ((c ^ priv.D : Nat) : Int) * ((r ^ (priv.E * priv.D) : Nat) : Int) * ir := by
              push_cast
              ring
          _ ≡ ((c ^ priv.D : Nat) : Int) * ((r : Nat) : Int) * ir
              [ZMOD (priv.N : Int)] :=
              ((Int.ModEq.refl _).mul e3).mul (Int.ModEq.refl ir)
          _ = ((c ^ priv.D : Nat) : Int) * ((r : Int) * ir) := by ring
          _ ≡ ((c ^ priv.D : Nat) : Int) * 1 [ZMOD (priv.N : Int)] :=
              (Int.ModEq.refl _).mul hinv
          _ = ((c ^ priv.D : Nat) : Int) := by ring
          _ ≡ ((c ^ priv.D % priv.N : Nat) : Int) [ZMOD (priv.N : Int)] :=
              (natModEq_to_int (Nat.mod_modEq _ _)).symm
      apply int_eq_of_modEq_of_lt hmod
      · exact Int.emod_nonneg _ hNz
      · exact Int.emod_lt_of_pos _ hNipos
      · exact_mod_cast Nat.zero_le _
      · exact_mod_cast Nat.mod_lt _ hNpos

theorem signPSS_eq_of_parts (random : Option (List Nat)) (priv : PrivateKey)
    (hLen : Nat) (H : List Nat → List Nat) (hashed salt em : List Nat) (c : Int)
    (henc : emsaPSSEncode hLen H hashed (bitLen priv.N - 1) salt = .ok em)
    (hdec : decrypt random priv (fromBytes em) = .ok c) :
    SignPSS random priv hLen H hashed salt =
      .ok (copyWithLeftPad ((bitLen priv.N + 7) / 8) (natBytes c.natAbs)) := by
  simp [SignPSS, henc, hdec]

theorem signPSS_ok_parts (random : Option (List Nat)) (priv : PrivateKey)
    (hLen : Nat) (H : List Nat → List Nat) (hashed salt s : List Nat)
    (h : SignPSS random priv hLen H hashed salt = .ok s) :
    ∃ em c, emsaPSSEncode hLen H hashed (bitLen priv.N - 1) salt = .ok em ∧
      decrypt random priv (fromBytes em) = .ok c ∧
      s = copyWithLeftPad ((bitLen priv.N + 7) / 8) (natBytes c.natAbs) := by
  unfold SignPSS at h
  revert h
  cases henc : emsaPSSEncode hLen H hashed (bitLen priv.N - 1) salt with
  | error e =>
    intro h
    simp at h
  | ok em =>
    intro h
    have h2 : (match decrypt random priv (fromBytes em) with
        | Except.error e => Except.error e
        | Except.ok c =>
          Except.ok (copyWithLeftPad ((bitLen priv.N + 7) / 8) (natBytes c.natAbs))) =
        Except.ok s := h
    clear h
    revert h2
    cases hdec : decrypt random priv (fromBytes em) with
    | error e =>
      intro h2
      simp at h2
    | ok cval =>
      intro h2
      have h3 : (Except.ok (copyWithLeftPad ((bitLen priv.N + 7) / 8)
          (natBytes cval.natAbs)) : Except RsaError (List Nat)) = Except.ok s := h2
      simp only [Except.ok.injEq] at h3
      exact ⟨em, cval, rfl, hdec, h3.symm⟩

/-- Claim C5: with a consistent key, whenever blinded decryption succeeds it
returns exactly the unblinded result, and therefore `SignPSS` produces
bit-identical signatures with and without a random source. -/
theorem decrypt_blinding_equiv (priv : PrivateKey) (hk : KeyOK priv)
    (hE : 1 ≤ priv.E)
    (hED : ∀ p ∈ priv.Primes, priv.E * priv.D ≡ 1 [MOD p - 1])
    (draws : List Nat) :
    (∀ (c : Nat) (m : Int), decrypt (some draws) priv c = .ok m →
        decrypt none priv c = .ok m) ∧
      (∀ (hLen : Nat) (H : List Nat → List Nat) (hashed salt s : List Nat),
        SignPSS (some draws) priv hLen H hashed salt = .ok s →
        SignPSS none priv hLen H hashed salt = .ok s) := by
  have main : ∀ (c : Nat) (m : Int), decrypt (some draws) priv c = .ok m →
      decrypt none priv c = .ok m := by
    intro c m h
    have hguard : ¬ priv.N < c := decrypt_ok_not_guard _ priv c m h
    have hm := decrypt_ok_eq priv hk hE hED (some draws) c m h
    rw [decrypt_none_eq priv c hguard, decryptCore_eq_pow priv hk, hm]
  refine ⟨main, ?_⟩
  intro hLen H hashed salt s h
  obtain ⟨em, cval, henc, hdec, hs⟩ :=
    signPSS_ok_parts (some draws) priv hLen H hashed salt s h
  rw [signPSS_eq_of_parts none priv hLen H hashed salt em cval henc
    (main (fromBytes em) cval hdec), hs]

set_option maxRecDepth 400000 in
/-- Witness for C5: the toy key and the draw list `[2]` give the same
plaintext with blinding as without. -/
theorem decrypt_blinding_equiv_witness :
    decrypt none toyPriv 12345 = .ok 130320 := by
  have h := decrypt_blinding_equiv toyPriv
    ⟨⟨by decide, by decide, by decide, by decide⟩, by decide, trivial⟩
    (by decide) (by decide) [2]
  exact h.1 12345 130320 (by rfl)

/-! ### Byte-level round trip of EMSA-PSS (towards claim C1) -/

theorem fromBytes_cons (b : Nat) (l : List Nat) :
    fromBytes (b :: l) = b * 256 ^ l.length + fromBytes l := by
  have h := fromBytes_append [b] l
  simp only [List.singleton_append] at h
  rw [h, fromBytes_singleton]

theorem getD_last_append (l : List Nat) (x : Nat) :
    (l ++ [x]).getD ((l ++ [x]).length - 1) 0 = x := by
  rw [List.getD_eq_getElem?_getD, show (l ++ [x]).length - 1 = l.length by simp,
    List.getElem?_concat_length]
  rfl

theorem take_replicate_append (n : Nat) (l : List Nat) :
    (List.replicate n (0 : Nat) ++ [1] ++ l).take n = List.replicate n 0 := by
  rw [List.append_assoc]
  exact List.take_left' (List.length_replicate n 0)

theorem getD_replicate_append (n : Nat) (l : List Nat) :
    (List.replicate n (0 : Nat) ++ [1] ++ l).getD n 0 = 1 := by
  induction n with
  | zero => simp [List.getD]
  | succ n ih =>
    rw [List.replicate_succ, List.cons_append, List.cons_append]
    simpa using ih

theorem drop_replicate_append (n : Nat) (l : List Nat) :
    (List.replicate n (0 : Nat) ++ [1] ++ l).drop (n + 1) = l := by
  induction n with
  | zero => simp
  | succ n ih =>
    rw [List.replicate_succ, List.cons_append, List.cons_append]
    simpa using ih

theorem one_and_low (t : Nat) (ht : 1 ≤ t) : 1 &&& (2 ^ t - 1) = 1 := by
  rw [Nat.one_and_eq_mod_two]
  have h2 : 2 ^ t = 2 * 2 ^ (t - 1) := by
    rw [← pow_succ']
    congr 1
    omega
  have h1 : 1 ≤ 2 ^ (t - 1) := Nat.one_le_two_pow
  omega

theorem emsa_roundtrip (hLen : Nat) (H : List Nat → List Nat)
    (mHash salt : List Nat) (emBits : Nat)
    (hH : HashOK hLen H)
    (hmlen : mHash.length = hLen)
    (hcond : hLen + salt.length + 2 ≤ (emBits + 7) / 8) :
    emsaPSSVerify hLen H mHash
      (pssMaskedDB hLen H mHash emBits salt ++ pssH H mHash salt ++ [0xBC])
      emBits salt.length = .ok () := by
  obtain ⟨h1, hH2⟩ := hH
  have hHlen : ∀ s, (H s).length = hLen := fun s => (hH2 s).1
  have hemL3 : 3 ≤ (emBits + 7) / 8 := by omega
  have hk7 : 8 * ((emBits + 7) / 8) - emBits ≤ 7 := by omega
  have hk8 : 8 * ((emBits + 7) / 8) - emBits ≤ 8 := by omega
  have h8k1 : 1 ≤ 8 - (8 * ((emBits + 7) / 8) - emBits) := by omega
  have hdbl : (pssDB hLen emBits salt).length = (emBits + 7) / 8 - hLen - 1 :=
    pssDB_length hLen emBits salt hcond
  have hhl : (pssH H mHash salt).length = hLen := hHlen _
  have hml : (mgf1Mask H (pssH H mHash salt) ((emBits + 7) / 8 - hLen - 1)).length =
      (emBits + 7) / 8 - hLen - 1 := mgf1Mask_length H _ hLen hHlen h1 _
  have hmdbl : (pssMaskedDB hLen H mHash emBits salt).length =
      (emBits + 7) / 8 - hLen - 1 :=
    pssMaskedDB_length hLen H mHash emBits salt ⟨h1, hH2⟩ hcond
  have hps : pssDB hLen emBits salt =
      List.replicate ((emBits + 7) / 8 - salt.length - hLen - 2) 0 ++ [1] ++ salt := rfl
  -- decompose DB as a cons whose head is absorbed by the low mask
  obtain ⟨d0, dtl, hdbcons, hd0low⟩ :
      ∃ d0 dtl, pssDB hLen emBits salt = d0 :: dtl ∧
        d0 &&& (2 ^ (8 - (8 * ((emBits + 7) / 8) - emBits)) - 1) = d0 := by
    rcases hcase : (emBits + 7) / 8 - salt.length - hLen - 2 with _ | s
    · refine ⟨1, salt, ?_, one_and_low _ h8k1⟩
      rw [hps, hcase]
      simp
    · refine ⟨0, List.replicate s 0 ++ [1] ++ salt, ?_, by simp⟩
      rw [hps, hcase]
      simp [List.replicate_succ]
  have hdtl : dtl.length = (emBits + 7) / 8 - hLen - 2 := by
    have := hdbl
    rw [hdbcons] at this
    simp at this
    omega
  -- decompose the mask as a cons
  obtain ⟨m0, mtl, hmcons⟩ :
      ∃ m0 mtl, mgf1Mask H (pssH H mHash salt) ((emBits + 7) / 8 - hLen - 1) =
        m0 :: mtl := by
    have hne : mgf1Mask H (pssH H mHash salt) ((emBits + 7) / 8 - hLen - 1) ≠ [] := by
      intro hemp
      rw [hemp] at hml
      simp at hml
      omega
    obtain ⟨m0, mtl, h⟩ := List.exists_cons_of_ne_nil hne
    exact ⟨m0, mtl, h⟩
  have hmtl : mtl.length = dtl.length := by
    have := hml
    rw [hmcons] at this
    simp at this
    omega
  have hmdbcons : pssMaskedDB hLen H mHash emBits salt =
      ((d0 ^^^ m0) &&& (0xFF >>> (8 * ((emBits + 7) / 8) - emBits))) ::
        List.zipWith (fun a b => a ^^^ b) dtl mtl := by
    unfold pssMaskedDB
    rw [hdbl, hmcons, hdbcons]
    rfl
  -- the encoded message and its length
  have hemlen : (pssMaskedDB hLen H mHash emBits salt ++ pssH H mHash salt ++
      [(0xBC : Nat)]).length = (emBits + 7) / 8 := by
    simp only [List.length_append, hmdbl, hhl, List.length_singleton]
    omega
  -- slicing the verifier's views of em
  have hTake : (pssMaskedDB hLen H mHash emBits salt ++ pssH H mHash salt ++
      [(0xBC : Nat)]).take ((emBits + 7) / 8 - hLen - 1) =
      pssMaskedDB hLen H mHash emBits salt := by
    rw [List.append_assoc]
    exact List.take_left' hmdbl
  have hExtract : pssExtractedH hLen
      (pssMaskedDB hLen H mHash emBits salt ++ pssH H mHash salt ++ [(0xBC : Nat)])
      emBits = pssH H mHash salt := by
    unfold pssExtractedH
    rw [List.append_assoc, List.drop_left' hmdbl]
    rw [show (pssMaskedDB hLen H mHash emBits salt ++
        (pssH H mHash salt ++ [(0xBC : Nat)])).length - 1 -
        ((emBits + 7) / 8 - hLen - 1) = hLen by
      simp only [List.length_append, hmdbl, hhl, List.length_singleton]
      omega]
    exact List.take_left' hhl
  -- unmasking recovers DB exactly
  have hUn : pssUnmaskedDB hLen H
      (pssMaskedDB hLen H mHash emBits salt ++ pssH H mHash salt ++ [(0xBC : Nat)])
      emBits = pssDB hLen emBits salt := by
    unfold pssUnmaskedDB
    rw [hTake, hExtract, hmdbl, hmcons, hmdbcons]
    show ((((d0 ^^^ m0) &&& (0xFF >>> (8 * ((emBits + 7) / 8) - emBits))) ^^^ m0) &&&
        (0xFF >>> (8 * ((emBits + 7) / 8) - emBits))) ::
        List.zipWith (fun a b => a ^^^ b)
          (List.zipWith (fun a b => a ^^^ b) dtl mtl) mtl =
        pssDB hLen emBits salt
    rw [zipWith_xor_cancel dtl mtl hmtl, hdbcons,
      shiftRight_255 _ hk8, unmask_low, hd0low]
  -- now discharge the verifier's checks in order
  unfold emsaPSSVerify
  rw [if_neg (by omega)]
  rw [if_neg (by omega)]
  rw [if_neg (by
    rw [List.append_assoc, ← List.append_assoc, getD_last_append]
    omega)]
  rw [if_neg (by
    have hget : (pssMaskedDB hLen H mHash emBits salt ++ pssH H mHash salt ++
        [(0xBC : Nat)]).getD 0 0 =
        (d0 ^^^ m0) &&& (0xFF >>> (8 * ((emBits + 7) / 8) - emBits)) := by
      rw [hmdbcons]
      rfl
    rw [hget, shiftRight_255 _ hk8]
    rw [and_low_and_high (d0 ^^^ m0) 0xFF (8 - (8 * ((emBits + 7) / 8) - emBits))]
    omega)]
  rw [if_neg (by
    rw [hUn, show (emBits + 7) / 8 - hLen - salt.length - 2 =
      (emBits + 7) / 8 - salt.length - hLen - 2 by omega, hps, take_replicate_append]
    simp)]
  rw [if_neg (by
    rw [hUn, show (emBits + 7) / 8 - hLen - salt.length - 2 =
      (emBits + 7) / 8 - salt.length - hLen - 2 by omega, hps, getD_replicate_append]
    omega)]
  rw [if_neg (by
    have hsalt : pssRecoveredSalt hLen H
        (pssMaskedDB hLen H mHash emBits salt ++ pssH H mHash salt ++ [(0xBC : Nat)])
        emBits salt.length = salt := by
      unfold pssRecoveredSalt
      rw [hUn, hdbl]
      rw [show (emBits + 7) / 8 - hLen - 1 - salt.length =
        ((emBits + 7) / 8 - salt.length - hLen - 2) + 1 by omega, hps,
        drop_replicate_append]
    rw [hsalt, hExtract]
    intro hne
    exact hne rfl)]

theorem zipWith_xor_mem_lt (a : List Nat) : ∀ (b : List Nat),
    (∀ x ∈ a, x < 256) → (∀ x ∈ b, x < 256) →
    ∀ x ∈ List.zipWith (fun u v => u ^^^ v) a b, x < 256 := by
  induction a with
  | nil =>
    intro b _ _ x hx
    simp at hx
  | cons y ys ih =>
    intro b ha hb x hx
    cases b with
    | nil => simp at hx
    | cons z zs =>
      simp only [List.zipWith, List.mem_cons] at hx
      rcases hx with hx | hx
      · subst hx
        exact Nat.xor_lt_two_pow (n := 8) (ha y (by simp)) (hb z (by simp))
      · exact ih zs (fun u hu => ha u (by simp [hu])) (fun u hu => hb u (by simp [hu])) x hx

theorem pssDB_mem_lt (hLen : Nat) (emBits : Nat) (salt : List Nat)
    (hsb : ∀ b ∈ salt, b < 256) : ∀ x ∈ pssDB hLen emBits salt, x < 256 := by
  intro x hx
  unfold pssDB at hx
  simp only [List.append_assoc, List.mem_append, List.mem_replicate,
    List.mem_singleton] at hx
  rcases hx with ⟨_, hx⟩ | hx | hx
  · omega
  · omega
  · exact hsb x hx

theorem pssMaskedDB_mem_lt (hLen : Nat) (H : List Nat → List Nat)
    (mHash : List Nat) (emBits : Nat) (salt : List Nat)
    (hH : HashOK hLen H) (hsb : ∀ b ∈ salt, b < 256) :
    ∀ x ∈ pssMaskedDB hLen H mHash emBits salt, x < 256 := by
  intro x hx
  unfold pssMaskedDB at hx
  revert hx
  cases hz : List.zipWith (fun a b => a ^^^ b) (pssDB hLen emBits salt)
      (mgf1Mask H (pssH H mHash salt) (pssDB hLen emBits salt).length) with
  | nil =>
    intro hx
    simp at hx
  | cons b bs =>
    intro hx
    have hall : ∀ y ∈ b :: bs, y < 256 := by
      rw [← hz]
      exact zipWith_xor_mem_lt _ _ (pssDB_mem_lt hLen emBits salt hsb)
        (mgf1Mask_mem_lt H _ (fun s => (hH.2 s).2) _)
    rcases List.mem_cons.mp hx with hx | hx
    · subst hx
      have h1 : b &&& 0xFF >>> (8 * ((emBits + 7) / 8) - emBits) ≤
          0xFF >>> (8 * ((emBits + 7) / 8) - emBits) := Nat.and_le_right
      have h2 : (0xFF : Nat) >>> (8 * ((emBits + 7) / 8) - emBits) ≤ 0xFF := by
        rw [Nat.shiftRight_eq_div_pow]
        exact Nat.div_le_self _ _
      omega
    · exact hall x (by simp [hx])

theorem pssMaskedDB_shape (hLen : Nat) (H : List Nat → List Nat)
    (mHash : List Nat) (emBits : Nat) (salt : List Nat)
    (hH : HashOK hLen H) (hcond : hLen + salt.length + 2 ≤ (emBits + 7) / 8) :
    ∃ z zs, pssMaskedDB hLen H mHash emBits salt =
      (z &&& (0xFF >>> (8 * ((emBits + 7) / 8) - emBits))) :: zs := by
  have hmd := pssMaskedDB_length hLen H mHash emBits salt hH hcond
  unfold pssMaskedDB
  unfold pssMaskedDB at hmd
  revert hmd
  cases List.zipWith (fun a b => a ^^^ b) (pssDB hLen emBits salt)
      (mgf1Mask H (pssH H mHash salt) (pssDB hLen emBits salt).length) with
  | nil =>
    intro hmd
    simp at hmd
    omega
  | cons b bs =>
    intro hmd
    exact ⟨b, bs, rfl⟩

theorem pssEM_fromBytes_lt (hLen : Nat) (H : List Nat → List Nat)
    (mHash : List Nat) (emBits : Nat) (salt : List Nat)
    (hH : HashOK hLen H) (hsb : ∀ b ∈ salt, b < 256)
    (hcond : hLen + salt.length + 2 ≤ (emBits + 7) / 8) :
    fromBytes (pssMaskedDB hLen H mHash emBits salt ++ pssH H mHash salt ++
      [(0xBC : Nat)]) < 2 ^ emBits := by
  obtain ⟨z, zs, hzs⟩ := pssMaskedDB_shape hLen H mHash emBits salt hH hcond
  have hmd := pssMaskedDB_length hLen H mHash emBits salt hH hcond
  have hhl : (pssH H mHash salt).length = hLen := (hH.2 _).1
  have hzl : zs.length = (emBits + 7) / 8 - hLen - 2 := by
    rw [hzs] at hmd
    simp at hmd
    omega
  have h1L : 1 ≤ hLen := hH.1
  have hemL3 : 3 ≤ (emBits + 7) / 8 := by omega
  have hk8 : 8 * ((emBits + 7) / 8) - emBits ≤ 8 := by omega
  rw [hzs, List.cons_append, List.cons_append, fromBytes_cons]
  have hrl : (zs ++ pssH H mHash salt ++ [(0xBC : Nat)]).length =
      (emBits + 7) / 8 - 1 := by
    rw [List.length_append, List.length_append, hzl, hhl, List.length_singleton]
    omega
  have hrest_lt : fromBytes (zs ++ pssH H mHash salt ++ [(0xBC : Nat)]) <
      256 ^ ((emBits + 7) / 8 - 1) := by
    rw [← hrl]
    apply fromBytes_lt
    intro b hb
    simp only [List.append_assoc, List.mem_append, List.mem_singleton] at hb
    rcases hb with hb | hb | hb
    · have : b ∈ pssMaskedDB hLen H mHash emBits salt := by
        rw [hzs]
        simp [hb]
      exact pssMaskedDB_mem_lt hLen H mHash emBits salt hH hsb b this
    · exact (hH.2 _).2 b hb
    · omega
  have hhead : z &&& 0xFF >>> (8 * ((emBits + 7) / 8) - emBits) ≤
      2 ^ (8 - (8 * ((emBits + 7) / 8) - emBits)) - 1 := by
    rw [← shiftRight_255 _ hk8]
    exact Nat.and_le_right
  rw [hrl]
  have hpow : (256 : Nat) ^ ((emBits + 7) / 8 - 1) =
      2 ^ (8 * ((emBits + 7) / 8 - 1)) := by
    rw [show (256 : Nat) = 2 ^ 8 from rfl, ← pow_mul]
  have hsplit : 2 ^ (8 - (8 * ((emBits + 7) / 8) - emBits)) *
      2 ^ (8 * ((emBits + 7) / 8 - 1)) = 2 ^ emBits := by
    rw [← pow_add]
    congr 1
    omega
  calc (z &&& 0xFF >>> (8 * ((emBits + 7) / 8) - emBits)) *
        256 ^ ((emBits + 7) / 8 - 1) +
        fromBytes (zs ++ pssH H mHash salt ++ [(0xBC : Nat)])
      ≤ (2 ^ (8 - (8 * ((emBits + 7) / 8) - emBits)) - 1) *
        256 ^ ((emBits + 7) / 8 - 1) +
        fromBytes (zs ++ pssH H mHash salt ++ [(0xBC : Nat)]) := by
        have := Nat.mul_le_mul_right (256 ^ ((emBits + 7) / 8 - 1)) hhead
        omega
    _ < (2 ^ (8 - (8 * ((emBits + 7) / 8) - emBits)) - 1) *
        256 ^ ((emBits + 7) / 8 - 1) + 256 ^ ((emBits + 7) / 8 - 1) := by omega
    _ = 2 ^ (8 - (8 * ((emBits + 7) / 8) - emBits)) * 256 ^ ((emBits + 7) / 8 - 1) := by
        have h1 : 1 ≤ 2 ^ (8 - (8 * ((emBits + 7) / 8) - emBits)) :=
          Nat.one_le_two_pow
        have h2 : (2 ^ (8 - (8 * ((emBits + 7) / 8) - emBits)) - 1 + 1) = 
          2 ^ (8 - (8 * ((emBits + 7) / 8) - emBits)) := by omega
        calc (2 ^ (8 - (8 * ((emBits + 7) / 8) - emBits)) - 1) *
              256 ^ ((emBits + 7) / 8 - 1) + 256 ^ ((emBits + 7) / 8 - 1)
            = (2 ^ (8 - (8 * ((emBits + 7) / 8) - emBits)) - 1 + 1) *
              256 ^ ((emBits + 7) / 8 - 1) := by ring
          _ = 2 ^ (8 - (8 * ((emBits + 7) / 8) - emBits)) *
              256 ^ ((emBits + 7) / 8 - 1) := by rw [h2]
    _ = 2 ^ emBits := by rw [hpow, hsplit]

/-- Claim C1: for a valid key pair over the same modulus, a digest of the
hash output length and a salt fitting the length precondition, any
successfully produced `SignPSS` signature is accepted by `VerifyPSS` with
the same digest and salt length. -/
theorem VerifyPSS_SignPSS_roundtrip
    (priv : PrivateKey) (pub : PublicKey)
    (hpubN : pub.N = priv.N) (hpubE : pub.E = priv.E)
    (hk : KeyOK priv) (hE : 1 ≤ priv.E)
    (hED : ∀ p ∈ priv.Primes, priv.E * priv.D ≡ 1 [MOD p - 1])
    (hLen : Nat) (H : List Nat → List Nat) (hH : HashOK hLen H)
    (digest salt : List Nat) (hdlen : digest.length = hLen)
    (hsb : ∀ b ∈ salt, b < 256)
    (hcond : hLen + salt.length + 2 ≤ (bitLen priv.N - 1 + 7) / 8)
    (random : Option (List Nat)) (s : List Nat)
    (hsign : SignPSS random priv hLen H digest salt = .ok s) :
    VerifyPSS pub hLen H digest s salt.length = .ok () := by
  obtain ⟨em, cval, henc, hdec, hs⟩ :=
    signPSS_ok_parts random priv hLen H digest salt s hsign
  have hform : em = pssMaskedDB hLen H digest (bitLen priv.N - 1) salt ++
      pssH H digest salt ++ [0xBC] := by
    unfold emsaPSSEncode at henc
    rw [if_neg (by omega), if_neg (by omega)] at henc
    simp only [Except.ok.injEq] at henc
    exact henc.symm
  subst hs
  have hNpos : 0 < priv.N := keyN_pos priv hk.1
  have hbN : 1 ≤ bitLen priv.N := bitLen_pos _ hNpos
  have hNlow : 2 ^ (bitLen priv.N - 1) ≤ priv.N := two_pow_bitLen_le _ hNpos
  have hmlt : fromBytes em < 2 ^ (bitLen priv.N - 1) := by
    rw [hform]
    exact pssEM_fromBytes_lt hLen H digest (bitLen priv.N - 1) salt hH hsb hcond
  have hmN : fromBytes em < priv.N := lt_of_lt_of_le hmlt hNlow
  have hcv : cval = ((fromBytes em ^ priv.D % priv.N : Nat) : Int) :=
    decrypt_ok_eq priv hk hE hED random (fromBytes em) cval hdec
  have hcabs : cval.natAbs = fromBytes em ^ priv.D % priv.N := by
    rw [hcv]
    exact Int.natAbs_ofNat _
  have hfb : fromBytes (copyWithLeftPad ((bitLen priv.N + 7) / 8)
      (natBytes cval.natAbs)) = fromBytes em ^ priv.D % priv.N := by
    rw [fromBytes_copyWithLeftPad, fromBytes_natBytes, hcabs]
  have hround : encrypt pub (fromBytes (copyWithLeftPad ((bitLen priv.N + 7) / 8)
      (natBytes cval.natAbs))) = fromBytes em := by
    rw [hfb]
    unfold encrypt
    rw [hpubE, hpubN]
    have h3 : fromBytes em ^ (priv.E * priv.D) ≡ fromBytes em [MOD priv.N] :=
      pow_mul_self_modEq priv hk.1 hk.2.1 hE hED (fromBytes em)
    calc (fromBytes em ^ priv.D % priv.N) ^ priv.E % priv.N
        = (fromBytes em ^ priv.D) ^ priv.E % priv.N := by
          conv_lhs => rw [← Nat.pow_mod]
      _ = fromBytes em ^ (priv.E * priv.D) % priv.N := by
          rw [← pow_mul, Nat.mul_comm]
      _ = fromBytes em % priv.N := h3
      _ = fromBytes em := Nat.mod_eq_of_lt hmN
  have hpow256 : fromBytes em < 256 ^ ((bitLen priv.N - 1 + 7) / 8) := by
    calc fromBytes em < 2 ^ (bitLen priv.N - 1) := hmlt
      _ ≤ 2 ^ (8 * ((bitLen priv.N - 1 + 7) / 8)) :=
          Nat.pow_le_pow_right (by omega) (by omega)
      _ = 256 ^ ((bitLen priv.N - 1 + 7) / 8) := by
          rw [show (256 : Nat) = 2 ^ 8 from rfl, ← pow_mul]
  have hbyte : byteLen (fromBytes em) ≤ (bitLen priv.N - 1 + 7) / 8 :=
    byteLen_le _ _ hpow256
  have hhl : (pssH H digest salt).length = hLen := (hH.2 _).1
  have hemlen : em.length = (bitLen priv.N - 1 + 7) / 8 := by
    rw [hform, List.length_append, List.length_append,
      pssMaskedDB_length hLen H digest (bitLen priv.N - 1) salt hH hcond,
      hhl, List.length_singleton]
    have h1L : 1 ≤ hLen := hH.1
    omega
  have hembytes : ∀ b ∈ em, b < 256 := by
    rw [hform]
    intro b hb
    simp only [List.append_assoc, List.mem_append, List.mem_singleton] at hb
    rcases hb with hb | hb | hb
    · exact pssMaskedDB_mem_lt hLen H digest (bitLen priv.N - 1) salt hH hsb b hb
    · exact (hH.2 _).2 b hb
    · omega
  have hpad : copyWithLeftPad ((bitLen priv.N - 1 + 7) / 8)
      (natBytes (fromBytes em)) = em := by
    rw [copyWithLeftPad_natBytes _ _ hpow256, ← hemlen]
    exact octets_fromBytes em hembytes
  unfold VerifyPSS
  rw [hpubN, hround, if_neg (by omega), hpad, hform]
  exact emsa_roundtrip hLen H digest salt (bitLen priv.N - 1) hH hdlen hcond

set_option maxRecDepth 400000 in
/-- Witness for C1: the toy key signs digest `[42]` with the empty salt and
the verifier accepts the produced signature. -/
theorem VerifyPSS_SignPSS_roundtrip_witness :
    VerifyPSS toyPub 1 toyHash [42] [0, 214, 2] 0 = .ok () := by
  have hsign : SignPSS none toyPriv 1 toyHash [42] [] = .ok [0, 214, 2] := by rfl
  have h := VerifyPSS_SignPSS_roundtrip toyPriv toyPub rfl rfl
    ⟨⟨by decide, by decide, by decide, by decide⟩, by decide, trivial⟩
    (by decide) (by decide) 1 toyHash
    ⟨by decide, fun s => ⟨rfl, by
      intro b hb
      simp [toyHash] at hb
      subst hb
      exact Nat.mod_lt _ (by decide)⟩⟩
    [42] [] (by decide) (by decide) (by decide) none [0, 214, 2] hsign
  exact h
